import Mathlib

/-
Verification of the README version-substitution script
`.github/scripts/update_readme.py` of the ShapeIndicators repository.

The script reads the environment variable LATEST_VERSION; when it is unset
or empty it calls exit(1).  Otherwise it reads README.md, applies three
`re.sub` substitutions in order and writes the result back:

  pattern1 = (implementation\s*[\x22\x27]io\.github\.dp-hridayan:shapeindicators:)[0-9.]+([\x22\x27])
  pattern2 = (implementation\(\s*[\x22\x27]io\.github\.dp-hridayan:shapeindicators:)[0-9.]+([\x22\x27]\))
  pattern3 = (shapeindicators\s*=\s*\x22)[0-9.]+(\x22)

each with the replacement function  lambda m: f"{m.group(1)}{VERSION}{m.group(2)}"
(where \x22 denotes the double-quote character and \x27 the single quote).

Documents are modelled as `List Char`.  Each regular expression is embedded
as a function that attempts a match at the head of a list and returns the
two captured groups, the matched version segment and the rest of the input.
Although Python's engine is a backtracking matcher, each of these three
patterns is deterministic: every greedy star (`\s*`, `[0-9.]+`) is followed
by a character that is outside the starred class (a quote after `\s*` and
after `[0-9.]+` in patterns 1 and 2; `=` and `\x22` in pattern 3), so
shortening the run during backtracking immediately fails and the engine's
unique result takes the maximal run.  The embedding therefore computes the
maximal runs directly with `takeWhile` and `dropWhile`.

`re.sub` scans left to right, replaces every non-overlapping match and
resumes after the end of each replaced match; `reSubF`, `reSub` below model
exactly that (the fuel argument only makes the recursion structural and is
irrelevant once the fuel is at least the length of the input, which is
proved below).
-/

/-- The characters matched by the class `\s` of Python `re` on `str`
patterns: ASCII whitespace, the ASCII separators 1c-1f, next line, and the
Unicode space characters. -/
def pySpaceChars : List Char :=
  [' ', '\t', '\n', '\r', '\x0b', '\x0c', '\x1c', '\x1d', '\x1e', '\x1f',
   '\x85', '\xa0', '\u1680', '\u2000', '\u2001', '\u2002', '\u2003', '\u2004',
   '\u2005', '\u2006', '\u2007', '\u2008', '\u2009', '\u200a', '\u2028',
   '\u2029', '\u202f', '\u205f', '\u3000']

/-- Test for the class `\s`. -/
def isPySpace (c : Char) : Bool :=
  decide (c ∈ pySpaceChars)

/-- Characters matched by the class `[0-9.]`. -/
def isVerChar (c : Char) : Bool :=
  c.isDigit || c == '.'

/-- Characters matched by the class `[\x22\x27]` (double or single quote). -/
def isQuoteChar (c : Char) : Bool :=
  c == '"' || c == '\''

/-- The literal `implementation` occurring in patterns 1 and 2. -/
def implChars : List Char :=
  ['i', 'm', 'p', 'l', 'e', 'm', 'e', 'n', 't', 'a', 't', 'i', 'o', 'n']

/-- The literal `io.github.dp-hridayan:shapeindicators:` occurring in
patterns 1 and 2 (escaped dots of the regex are literal dots). -/
def coordChars : List Char :=
  ['i', 'o', '.', 'g', 'i', 't', 'h', 'u', 'b', '.', 'd', 'p', '-', 'h', 'r', 'i',
   'd', 'a', 'y', 'a', 'n', ':', 's', 'h', 'a', 'p', 'e', 'i', 'n', 'd', 'i', 'c',
   'a', 't', 'o', 'r', 's', ':']

/-- The literal `shapeindicators` occurring in pattern 3. -/
def shapeChars : List Char :=
  ['s', 'h', 'a', 'p', 'e', 'i', 'n', 'd', 'i', 'c', 'a', 't', 'o', 'r', 's']

/-- Match a literal at the head of the input and return the rest. -/
def stripLit : List Char → List Char → Option (List Char)
  | [], s => some s
  | _ :: _, [] => none
  | a :: as, c :: cs => if c = a then stripLit as cs else none

/-- Result of a successful match attempt: group 1, the matched version
segment, group 2, and the rest of the input after the match. -/
abbrev MatchParts := List Char × List Char × List Char × List Char

/-- A match attempt at the head of the input. -/
abbrev Matcher := List Char → Option MatchParts

/-- Pattern 1, stage 4: after group 1, the segment `[0-9.]+` (already split
off as the maximal run `v`) must be nonempty and be followed by a closing
quote `[\x22\x27]`. -/
def verStage1 (g1 v : List Char) : List Char → Option MatchParts
  | [] => none
  | q2 :: r =>
    if v = [] then none
    else if isQuoteChar q2 then some (g1, v, [q2], r) else none

/-- Pattern 1, stage 3: the literal `io\.github\.dp-hridayan:shapeindicators:`
must follow, then the version segment (maximal `[0-9.]` run). -/
def coordStage1 (g1 : List Char) : Option (List Char) → Option MatchParts
  | none => none
  | some s4 => verStage1 g1 (s4.takeWhile isVerChar) (s4.dropWhile isVerChar)

/-- Pattern 1, stage 2: after `implementation` and the maximal `\s*` run `ws`,
an opening quote `[\x22\x27]` must follow. -/
def quoteStage1 (ws : List Char) : List Char → Option MatchParts
  | [] => none
  | q1 :: s3 =>
    if isQuoteChar q1 then
      coordStage1 (implChars ++ ws ++ [q1] ++ coordChars) (stripLit coordChars s3)
    else none

/-- Pattern 1, stage 1: after the literal `implementation`, split off the
maximal `\s*` run. -/
def spaceStage1 : Option (List Char) → Option MatchParts
  | none => none
  | some s1 => quoteStage1 (s1.takeWhile isPySpace) (s1.dropWhile isPySpace)

/-- Match attempt for pattern 1,
`(implementation\s*[\x22\x27]io\.github\.dp-hridayan:shapeindicators:)[0-9.]+([\x22\x27])`. -/
def M1run (s : List Char) : Option MatchParts :=
  spaceStage1 (stripLit implChars s)

/-- Pattern 2, stage 4: the version segment must be nonempty and be
followed by a closing quote and the literal `\)`. -/
def verStage2 (g1 v : List Char) : List Char → Option MatchParts
  | q2 :: rp :: r =>
    if v = [] then none
    else if isQuoteChar q2 then
      (if rp = ')' then some (g1, v, [q2, ')'], r) else none)
    else none
  | _ => none

/-- Pattern 2, stage 3: the coordinate literal, then the version segment. -/
def coordStage2 (g1 : List Char) : Option (List Char) → Option MatchParts
  | none => none
  | some s4 => verStage2 g1 (s4.takeWhile isVerChar) (s4.dropWhile isVerChar)

/-- Pattern 2, stage 2: after `implementation\(` and the maximal `\s*` run,
an opening quote must follow. -/
def quoteStage2 (ws : List Char) : List Char → Option MatchParts
  | [] => none
  | q1 :: s3 =>
    if isQuoteChar q1 then
      coordStage2 (implChars ++ ['('] ++ ws ++ [q1] ++ coordChars) (stripLit coordChars s3)
    else none

/-- Pattern 2, stage 1: after the literal `implementation\(`, split off the
maximal `\s*` run. -/
def spaceStage2 : Option (List Char) → Option MatchParts
  | none => none
  | some s1 => quoteStage2 (s1.takeWhile isPySpace) (s1.dropWhile isPySpace)

/-- Match attempt for pattern 2,
`(implementation\(\s*[\x22\x27]io\.github\.dp-hridayan:shapeindicators:)[0-9.]+([\x22\x27]\))`. -/
def M2run (s : List Char) : Option MatchParts :=
  spaceStage2 (stripLit (implChars ++ ['(']) s)

/-- Pattern 3, stage 4: the version segment must be nonempty and be
followed by the closing `\x22`. -/
def verStage3 (g1 v : List Char) : List Char → Option MatchParts
  | '"' :: r =>
    if v = [] then none else some (g1, v, ['"'], r)
  | _ => none

/-- Pattern 3, stage 3: after `=` and the maximal second `\s*` run, the
opening `\x22` must follow, then the version segment. -/
def quote3Stage (g1 : List Char) : List Char → Option MatchParts
  | '"' :: s3 => verStage3 (g1 ++ ['"']) (s3.takeWhile isVerChar) (s3.dropWhile isVerChar)
  | _ => none

/-- Pattern 3, stage 2: after `shapeindicators` and the maximal first `\s*`
run, the literal `=` must follow. -/
def eqStage3 (ws1 : List Char) : List Char → Option MatchParts
  | '=' :: s2 =>
    quote3Stage (shapeChars ++ ws1 ++ ['='] ++ s2.takeWhile isPySpace)
      (s2.dropWhile isPySpace)
  | _ => none

/-- Pattern 3, stage 1: after the literal `shapeindicators`, split off the
maximal `\s*` run. -/
def spaceStage3 : Option (List Char) → Option MatchParts
  | none => none
  | some s1 => eqStage3 (s1.takeWhile isPySpace) (s1.dropWhile isPySpace)

/-- Match attempt for pattern 3, `(shapeindicators\s*=\s*\x22)[0-9.]+(\x22)`. -/
def M3run (s : List Char) : Option MatchParts :=
  spaceStage3 (stripLit shapeChars s)

/-- One full scan of `re.sub` with the replacement
`lambda m: f"{m.group(1)}{VERSION}{m.group(2)}"`: find the leftmost match,
emit group 1, the new version and group 2, and resume after the match.
The fuel argument only makes the recursion structural. -/
def reSubF (m : Matcher) (V : List Char) : Nat → List Char → List Char
  | 0, l => l
  | _ + 1, [] => []
  | fuel + 1, c :: cs =>
    match m (c :: cs) with
    | some (g1, _, g2, r) => g1 ++ V ++ g2 ++ reSubF m V fuel r
    | none => c :: reSubF m V fuel cs

/-- `re.sub(pattern, lambda m: f"{m.group(1)}{VERSION}{m.group(2)}", content)`
for the matcher embedding the pattern. -/
def reSub (m : Matcher) (V : List Char) (l : List Char) : List Char :=
  reSubF m V l.length l

/-- Lines 18-20 of the script: the three substitutions applied in order
(pattern 1, then pattern 2, then pattern 3) to the document text. -/
def substituteContent (V : List Char) (content : List Char) : List Char :=
  reSub M3run V (reSub M2run V (reSub M1run V content))

/-- A piece of the decomposition of a document induced by one `re.sub`
scan: either a character the scan passed over without finding a match
starting there, or a match with its two captured groups and its version
segment. -/
inductive SubPiece : Type
  | lit (c : Char)
  | hit (g1 v g2 : List Char)

/-- The decomposition computed by the `re.sub` scan (same recursion as
`reSubF`, recording what happens instead of substituting). -/
def decompF (m : Matcher) : Nat → List Char → List SubPiece
  | 0, _ => []
  | _ + 1, [] => []
  | fuel + 1, c :: cs =>
    match m (c :: cs) with
    | some (g1, v, g2, r) => SubPiece.hit g1 v g2 :: decompF m fuel r
    | none => SubPiece.lit c :: decompF m fuel cs

/-- Decomposition of a document under one pattern. -/
def decomp (m : Matcher) (l : List Char) : List SubPiece :=
  decompF m l.length l

/-- The text a piece came from. -/
def origOf : SubPiece → List Char
  | SubPiece.lit c => [c]
  | SubPiece.hit g1 v g2 => g1 ++ v ++ g2

/-- The text a piece is rewritten to: the version segment of a match is
replaced by the characters of `V`, taken verbatim (the replacement is an
ordinary function, so no template expansion of any kind is applied to
`V`); everything else is unchanged. -/
def newOf (V : List Char) : SubPiece → List Char
  | SubPiece.lit c => [c]
  | SubPiece.hit g1 _ g2 => g1 ++ V ++ g2

/-- Concatenation of the texts of a list of pieces. -/
def flatPieces (f : SubPiece → List Char) : List SubPiece → List Char
  | [] => []
  | p :: ps => f p ++ flatPieces f ps

/-- Decidable check that no suffix of the document matches any of the
three patterns (no occurrence of any recognized shape). -/
def noMatchCheck (l : List Char) : Bool :=
  l.tails.all fun t => (M1run t).isNone && (M2run t).isNone && (M3run t).isNone

/-- The name of the environment variable the script reads (line 5). -/
def latestVersionName : List Char :=
  ['L', 'A', 'T', 'E', 'S', 'T', '_', 'V', 'E', 'R', 'S', 'I', 'O', 'N']

/-- File operations the script can attempt on README.md. -/
inductive FileOp : Type
  | readAttempt
  | writeAttempt
deriving DecidableEq

/-- How a run of the script ends: normally, via exit(1) on a missing or
empty version, or with a propagated (uncaught) filesystem exception. -/
inductive ScriptErr : Type
  | fsError
deriving DecidableEq

/-- Result of one invocation: process exit status, the README contents on
disk afterwards (`none` when the file is missing or unreadable), the file
operations attempted in order, and the uncaught error if any. -/
structure RunResult : Type where
  exitCode : Nat
  file : Option (List Char)
  ops : List FileOp
  err : Option ScriptErr
deriving DecidableEq

/-- The whole script, lines 5-23: read LATEST_VERSION from the
environment (`env` maps variable names to values); exit(1) when it is
unset or empty, before any file access; otherwise open and read
README.md (a missing or unreadable file propagates the exception, which
terminates the interpreter with a nonzero status and no write), apply
the three substitutions, and write the result back. -/
def runScript (env : List Char → Option (List Char))
    (file : Option (List Char)) : RunResult :=
  match env latestVersionName with
  | none => ⟨1, file, [], none⟩
  | some v =>
    if v = [] then ⟨1, file, [], none⟩
    else
      match file with
      | none => ⟨1, none, [FileOp.readAttempt], some ScriptErr.fsError⟩
      | some content =>
        ⟨0, some (substituteContent v content),
         [FileOp.readAttempt, FileOp.writeAttempt], none⟩

/-- The full text of a match of pattern 1 with whitespace run `ws`,
quotes `q1`, `q2` and version segment `v`. -/
def inst1 (ws : List Char) (q1 : Char) (v : List Char) (q2 : Char) : List Char :=
  implChars ++ ws ++ [q1] ++ coordChars ++ v ++ [q2]

/-- The full text of a match of pattern 2. -/
def inst2 (ws : List Char) (q1 : Char) (v : List Char) (q2 : Char) : List Char :=
  implChars ++ ['('] ++ ws ++ [q1] ++ coordChars ++ v ++ [q2, ')']

/-- The full text of a match of pattern 3 with whitespace runs `ws1`,
`ws2` and version segment `v`. -/
def inst3 (ws1 ws2 : List Char) (v : List Char) : List Char :=
  shapeChars ++ ws1 ++ ['='] ++ ws2 ++ ['"'] ++ v ++ ['"']

/-- The pair of captured groups of a match of pattern 1 together with the
side conditions its pieces satisfy. -/
def IsInst1 (g1 v g2 : List Char) : Prop :=
  ∃ ws q1 q2, (∀ c ∈ ws, isPySpace c = true) ∧ isQuoteChar q1 = true ∧
    isQuoteChar q2 = true ∧ v ≠ [] ∧ (∀ c ∈ v, isVerChar c = true) ∧
    g1 = implChars ++ ws ++ [q1] ++ coordChars ∧ g2 = [q2]

/-- The pair of captured groups of a match of pattern 2 together with the
side conditions its pieces satisfy. -/
def IsInst2 (g1 v g2 : List Char) : Prop :=
  ∃ ws q1 q2, (∀ c ∈ ws, isPySpace c = true) ∧ isQuoteChar q1 = true ∧
    isQuoteChar q2 = true ∧ v ≠ [] ∧ (∀ c ∈ v, isVerChar c = true) ∧
    g1 = implChars ++ ['('] ++ ws ++ [q1] ++ coordChars ∧ g2 = [q2, ')']

/-- The pair of captured groups of a match of pattern 3 together with the
side conditions its pieces satisfy. -/
def IsInst3 (g1 v g2 : List Char) : Prop :=
  ∃ ws1 ws2, (∀ c ∈ ws1, isPySpace c = true) ∧ (∀ c ∈ ws2, isPySpace c = true) ∧
    v ≠ [] ∧ (∀ c ∈ v, isVerChar c = true) ∧
    g1 = shapeChars ++ ws1 ++ ['='] ++ ws2 ++ ['"'] ∧ g2 = ['"']

/-- Every match of the pattern found anywhere in `l` carries `V` as its
version segment (so substituting `V` again changes nothing). -/
def GoodM (m : Matcher) (V : List Char) (l : List Char) : Prop :=
  ∀ s, s <:+ l → ∀ g1 v g2 r, m s = some (g1, v, g2, r) → v = V

/- ------------------------------------------------------------------ -/
/- Basic facts about the character classes.                           -/
/- ------------------------------------------------------------------ -/

theorem quoteChar_cases {c : Char} (h : isQuoteChar c = true) : c = '"' ∨ c = '\'' := by
  simpa [isQuoteChar] using h

theorem pySpace_mem {c : Char} (h : isPySpace c = true) : c ∈ pySpaceChars :=
  of_decide_eq_true h

theorem pySpace_facts {c : Char} (h : isPySpace c = true) :
    c ≠ 'i' ∧ c ≠ 's' ∧ c ≠ 'h' ∧ c ≠ '(' ∧ c ≠ ')' ∧ c ≠ '=' ∧ c ≠ ':' ∧
      isQuoteChar c = false ∧ isVerChar c = false := by
  have hm := pySpace_mem h
  fin_cases hm <;> decide

theorem quoteChar_facts {c : Char} (h : isQuoteChar c = true) :
    c ≠ 'i' ∧ c ≠ 's' ∧ c ≠ '(' ∧ c ≠ ')' ∧ c ≠ '=' ∧ c ≠ ':' ∧
      isPySpace c = false ∧ isVerChar c = false := by
  rcases quoteChar_cases h with rfl | rfl <;> decide

theorem verChar_val {c : Char} (h : isVerChar c = true) :
    c = '.' ∨ (48 ≤ c.toNat ∧ c.toNat ≤ 57) := by
  simp only [isVerChar, Bool.or_eq_true, beq_iff_eq] at h
  rcases h with h | rfl
  · right
    simp only [Char.isDigit, Bool.and_eq_true, decide_eq_true_eq] at h
    exact ⟨h.1, h.2⟩
  · left; rfl

theorem verChar_facts {c : Char} (h : isVerChar c = true) :
    c ≠ 'i' ∧ c ≠ 's' ∧ c ≠ '(' ∧ c ≠ ')' ∧ c ≠ '=' ∧ c ≠ ':' ∧
      isQuoteChar c = false ∧ isPySpace c = false := by
  rcases verChar_val h with rfl | ⟨h1, h2⟩
  · exact ⟨by decide, by decide, by decide, by decide, by decide, by decide,
      by decide, by decide⟩
  · refine ⟨?_, ?_, ?_, ?_, ?_, ?_, ?_, ?_⟩
    · rintro rfl; exact absurd h2 (by decide)
    · rintro rfl; exact absurd h2 (by decide)
    · rintro rfl; exact absurd h1 (by decide)
    · rintro rfl; exact absurd h1 (by decide)
    · rintro rfl; exact absurd h2 (by decide)
    · rintro rfl; exact absurd h2 (by decide)
    · rcases eq_or_ne c '"' with rfl | hne1
      · exact absurd h1 (by decide)
      · rcases eq_or_ne c '\'' with rfl | hne2
        · exact absurd h1 (by decide)
        · simp [isQuoteChar, hne1, hne2]
    · by_contra hsp
      simp only [Bool.not_eq_false] at hsp
      have hm := pySpace_mem hsp
      fin_cases hm <;> revert h1 h2 <;> decide

/- ------------------------------------------------------------------ -/
/- List helpers.                                                      -/
/- ------------------------------------------------------------------ -/

theorem stripLit_eq_some {lit s r : List Char} :
    stripLit lit s = some r ↔ s = lit ++ r := by
  induction lit generalizing s with
  | nil => simp [stripLit]
  | cons a as ih =>
    cases s with
    | nil => simp [stripLit]
    | cons c cs =>
      by_cases hc : c = a
      · subst hc; simp [stripLit, ih]
      · simp [stripLit, hc]

theorem takeWhile_all_cons {p : Char → Bool} {a : List Char} {b : Char} {t : List Char}
    (ha : ∀ c ∈ a, p c = true) (hb : p b = false) :
    (a ++ b :: t).takeWhile p = a ∧ (a ++ b :: t).dropWhile p = b :: t := by
  induction a with
  | nil =>
    constructor
    · rw [List.nil_append, List.takeWhile_cons_of_neg (by simp [hb])]
    · simp [List.dropWhile_cons, hb]
  | cons x xs ih =>
    have hx : p x = true := ha x (by simp)
    have hrec := ih fun c hc => ha c (by simp [hc])
    refine ⟨?_, ?_⟩
    · simp only [List.cons_append, List.takeWhile_cons, hx, if_true, hrec.1]
    · simp only [List.cons_append, List.dropWhile_cons, hx, if_true, hrec.2]

theorem dropWhile_head_false {p : Char → Bool} {l : List Char} {q : Char} {r : List Char}
    (h : l.dropWhile p = q :: r) : p q = false := by
  induction l with
  | nil => simp [List.dropWhile] at h
  | cons x xs ih =>
    by_cases hx : p x
    · rw [List.dropWhile_cons_of_pos hx] at h; exact ih h
    · rw [List.dropWhile_cons_of_neg hx] at h
      obtain ⟨rfl, rfl⟩ := List.cons.inj h
      simpa using hx

theorem append_overlap {A B C D : List Char} (h : A ++ B = C ++ D)
    (hl : C.length ≤ A.length) : ∃ E, A = C ++ E ∧ D = E ++ B := by
  induction C generalizing A with
  | nil => exact ⟨A, by simp, by simpa using h.symm⟩
  | cons c C' ih =>
    cases A with
    | nil => simp at hl
    | cons a A' =>
      simp only [List.cons_append, List.cons.injEq] at h
      obtain ⟨rfl, h2⟩ := h
      obtain ⟨E, hE1, hE2⟩ := ih h2 (by simpa using hl)
      exact ⟨E, by simp [hE1], hE2⟩

theorem suffix_append_cases {z A B : List Char} (h : z <:+ A ++ B) :
    z <:+ B ∨ ∃ t, t <:+ A ∧ z = t ++ B := by
  obtain ⟨u, hu⟩ := h
  by_cases hl : A.length ≤ u.length
  · left
    obtain ⟨E, _, hE2⟩ := append_overlap hu hl
    exact ⟨E, hE2.symm⟩
  · right
    push_neg at hl
    obtain ⟨E, hE1, hE2⟩ := append_overlap hu.symm (le_of_lt hl)
    exact ⟨E, ⟨u, hE1.symm⟩, hE2⟩

/- ------------------------------------------------------------------ -/
/- Characterization of the three matchers.                            -/
/- ------------------------------------------------------------------ -/

theorem M1run_eq_some {s g1 v g2 r : List Char}
    (h : M1run s = some (g1, v, g2, r)) :
    ∃ ws q1 q2, (∀ c ∈ ws, isPySpace c = true) ∧ isQuoteChar q1 = true ∧
      isQuoteChar q2 = true ∧ v ≠ [] ∧ (∀ c ∈ v, isVerChar c = true) ∧
      g1 = implChars ++ ws ++ [q1] ++ coordChars ∧ g2 = [q2] ∧
      s = implChars ++ ws ++ [q1] ++ coordChars ++ v ++ [q2] ++ r := by
  unfold M1run at h
  cases e1 : stripLit implChars s with
  | none => rw [e1] at h; simp [spaceStage1] at h
  | some s1 =>
  rw [e1] at h
  simp only [spaceStage1] at h
  cases e2 : s1.dropWhile isPySpace with
  | nil => rw [e2] at h; simp [quoteStage1] at h
  | cons q1 s3 =>
  rw [e2] at h
  simp only [quoteStage1] at h
  by_cases hq1 : isQuoteChar q1
  case neg => rw [if_neg (by simp [hq1])] at h; simp at h
  case pos =>
  rw [if_pos (by simp [hq1])] at h
  cases e3 : stripLit coordChars s3 with
  | none => rw [e3] at h; simp [coordStage1] at h
  | some s4 =>
  rw [e3] at h
  simp only [coordStage1] at h
  cases e4 : s4.dropWhile isVerChar with
  | nil => rw [e4] at h; simp [verStage1] at h
  | cons q2 r' =>
  rw [e4] at h
  simp only [verStage1] at h
  by_cases hv0 : s4.takeWhile isVerChar = []
  · rw [if_pos hv0] at h; simp at h
  · rw [if_neg hv0] at h
    by_cases hq2 : isQuoteChar q2
    case neg => rw [if_neg (by simp [hq2])] at h; simp at h
    case pos =>
    rw [if_pos (by simp [hq2])] at h
    simp only [Option.some.injEq, Prod.mk.injEq] at h
    obtain ⟨hg1, hv, hg2, hr⟩ := h
    subst hg1 hv hg2 hr
    refine ⟨s1.takeWhile isPySpace, q1, q2,
      fun c hc => List.mem_takeWhile_imp hc, hq1, hq2, hv0,
      fun c hc => List.mem_takeWhile_imp hc, rfl, rfl, ?_⟩
    have hs : s = implChars ++ s1 := stripLit_eq_some.mp e1
    have h1 : s1.takeWhile isPySpace ++ (q1 :: s3) = s1 := by
      rw [← e2]; exact List.takeWhile_append_dropWhile isPySpace s1
    have h3 : s3 = coordChars ++ s4 := stripLit_eq_some.mp e3
    have h4 : s4.takeWhile isVerChar ++ (q2 :: r') = s4 := by
      rw [← e4]; exact List.takeWhile_append_dropWhile isVerChar s4
    have h3' : s3 = coordChars ++ (List.takeWhile isVerChar s4 ++ q2 :: r') := by
      rw [h4]; exact h3
    have hs1 : s1 = List.takeWhile isPySpace s1 ++
        (q1 :: (coordChars ++ (List.takeWhile isVerChar s4 ++ q2 :: r'))) := by
      conv_lhs => rw [← h1]
      rw [h3']
    rw [hs]
    conv_lhs => rw [hs1]
    simp [List.append_assoc]

theorem M1run_complete {ws v r : List Char} {q1 q2 : Char}
    (hws : ∀ c ∈ ws, isPySpace c = true) (hq1 : isQuoteChar q1 = true)
    (hq2 : isQuoteChar q2 = true) (hv : v ≠ []) (hvc : ∀ c ∈ v, isVerChar c = true) :
    M1run (implChars ++ ws ++ [q1] ++ coordChars ++ v ++ [q2] ++ r) =
      some (implChars ++ ws ++ [q1] ++ coordChars, v, [q2], r) := by
  have hsp : isPySpace q1 = false := (quoteChar_facts hq1).2.2.2.2.2.2.1
  have hvq : isVerChar q2 = false := (quoteChar_facts hq2).2.2.2.2.2.2.2
  unfold M1run
  rw [show implChars ++ ws ++ [q1] ++ coordChars ++ v ++ [q2] ++ r
      = implChars ++ (ws ++ (q1 :: (coordChars ++ (v ++ (q2 :: r))))) by simp]
  rw [stripLit_eq_some.mpr rfl]
  simp only [spaceStage1]
  obtain ⟨ht1, hd1⟩ := takeWhile_all_cons hws hsp
    (t := coordChars ++ (v ++ (q2 :: r)))
  rw [ht1, hd1]
  simp only [quoteStage1, hq1, if_true]
  rw [stripLit_eq_some.mpr rfl]
  simp only [coordStage1]
  obtain ⟨ht2, hd2⟩ := takeWhile_all_cons hvc hvq (t := r)
  rw [ht2, hd2]
  simp only [verStage1, if_neg hv, hq2, if_true]

theorem M2run_eq_some {s g1 v g2 r : List Char}
    (h : M2run s = some (g1, v, g2, r)) :
    ∃ ws q1 q2, (∀ c ∈ ws, isPySpace c = true) ∧ isQuoteChar q1 = true ∧
      isQuoteChar q2 = true ∧ v ≠ [] ∧ (∀ c ∈ v, isVerChar c = true) ∧
      g1 = implChars ++ ['('] ++ ws ++ [q1] ++ coordChars ∧ g2 = [q2, ')'] ∧
      s = implChars ++ ['('] ++ ws ++ [q1] ++ coordChars ++ v ++ [q2, ')'] ++ r := by
  unfold M2run at h
  cases e1 : stripLit (implChars ++ ['(']) s with
  | none => rw [e1] at h; simp [spaceStage2] at h
  | some s1 =>
  rw [e1] at h
  simp only [spaceStage2] at h
  cases e2 : s1.dropWhile isPySpace with
  | nil => rw [e2] at h; simp [quoteStage2] at h
  | cons q1 s3 =>
  rw [e2] at h
  simp only [quoteStage2] at h
  by_cases hq1 : isQuoteChar q1
  case neg => rw [if_neg (by simp [hq1])] at h; simp at h
  case pos =>
  rw [if_pos (by simp [hq1])] at h
  cases e3 : stripLit coordChars s3 with
  | none => rw [e3] at h; simp [coordStage2] at h
  | some s4 =>
  rw [e3] at h
  simp only [coordStage2] at h
  cases e4 : s4.dropWhile isVerChar with
  | nil => rw [e4] at h; simp [verStage2] at h
  | cons q2 rest =>
  rw [e4] at h
  cases rest with
  | nil => simp [verStage2] at h
  | cons rp r' =>
  simp only [verStage2] at h
  by_cases hv0 : s4.takeWhile isVerChar = []
  · rw [if_pos hv0] at h; simp at h
  · rw [if_neg hv0] at h
    by_cases hq2 : isQuoteChar q2
    case neg => rw [if_neg (by simp [hq2])] at h; simp at h
    case pos =>
    rw [if_pos (by simp [hq2])] at h
    by_cases hrp : rp = ')'
    case neg => rw [if_neg hrp] at h; simp at h
    case pos =>
    subst hrp
    rw [if_pos rfl] at h
    simp only [Option.some.injEq, Prod.mk.injEq] at h
    obtain ⟨hg1, hv, hg2, hr⟩ := h
    subst hg1 hv hg2 hr
    refine ⟨s1.takeWhile isPySpace, q1, q2,
      fun c hc => List.mem_takeWhile_imp hc, hq1, hq2, hv0,
      fun c hc => List.mem_takeWhile_imp hc, rfl, rfl, ?_⟩
    have hs : s = implChars ++ ['('] ++ s1 := stripLit_eq_some.mp e1
    have h1 : s1.takeWhile isPySpace ++ (q1 :: s3) = s1 := by
      rw [← e2]; exact List.takeWhile_append_dropWhile isPySpace s1
    have h3 : s3 = coordChars ++ s4 := stripLit_eq_some.mp e3
    have h4 : s4.takeWhile isVerChar ++ (q2 :: ')' :: r') = s4 := by
      rw [← e4]; exact List.takeWhile_append_dropWhile isVerChar s4
    have h3' : s3 = coordChars ++ (List.takeWhile isVerChar s4 ++ q2 :: ')' :: r') := by
      rw [h4]; exact h3
    have hs1 : s1 = List.takeWhile isPySpace s1 ++
        (q1 :: (coordChars ++ (List.takeWhile isVerChar s4 ++ q2 :: ')' :: r'))) := by
      conv_lhs => rw [← h1]
      rw [h3']
    rw [hs]
    conv_lhs => rw [hs1]
    simp [List.append_assoc]

theorem M2run_complete {ws v r : List Char} {q1 q2 : Char}
    (hws : ∀ c ∈ ws, isPySpace c = true) (hq1 : isQuoteChar q1 = true)
    (hq2 : isQuoteChar q2 = true) (hv : v ≠ []) (hvc : ∀ c ∈ v, isVerChar c = true) :
    M2run (implChars ++ ['('] ++ ws ++ [q1] ++ coordChars ++ v ++ [q2, ')'] ++ r) =
      some (implChars ++ ['('] ++ ws ++ [q1] ++ coordChars, v, [q2, ')'], r) := by
  have hsp : isPySpace q1 = false := (quoteChar_facts hq1).2.2.2.2.2.2.1
  have hvq : isVerChar q2 = false := (quoteChar_facts hq2).2.2.2.2.2.2.2
  unfold M2run
  rw [show implChars ++ ['('] ++ ws ++ [q1] ++ coordChars ++ v ++ [q2, ')'] ++ r
      = (implChars ++ ['(']) ++ (ws ++ (q1 :: (coordChars ++ (v ++ (q2 :: ')' :: r)))))
      by simp]
  rw [stripLit_eq_some.mpr rfl]
  simp only [spaceStage2]
  obtain ⟨ht1, hd1⟩ := takeWhile_all_cons hws hsp
    (t := coordChars ++ (v ++ (q2 :: ')' :: r)))
  rw [ht1, hd1]
  simp only [quoteStage2, hq1, if_true]
  rw [stripLit_eq_some.mpr rfl]
  simp only [coordStage2]
  obtain ⟨ht2, hd2⟩ := takeWhile_all_cons hvc hvq (t := ')' :: r)
  rw [ht2, hd2]
  simp only [verStage2, if_neg hv, hq2, if_true, if_pos rfl]

theorem M3run_eq_some {s g1 v g2 r : List Char}
    (h : M3run s = some (g1, v, g2, r)) :
    ∃ ws1 ws2, (∀ c ∈ ws1, isPySpace c = true) ∧ (∀ c ∈ ws2, isPySpace c = true) ∧
      v ≠ [] ∧ (∀ c ∈ v, isVerChar c = true) ∧
      g1 = shapeChars ++ ws1 ++ ['='] ++ ws2 ++ ['"'] ∧ g2 = ['"'] ∧
      s = shapeChars ++ ws1 ++ ['='] ++ ws2 ++ ['"'] ++ v ++ ['"'] ++ r := by
  unfold M3run at h
  cases e1 : stripLit shapeChars s with
  | none => rw [e1] at h; simp [spaceStage3] at h
  | some s1 =>
  rw [e1] at h
  simp only [spaceStage3] at h
  cases e2 : s1.dropWhile isPySpace with
  | nil => rw [e2] at h; simp [eqStage3] at h
  | cons ceq s2 =>
  rw [e2] at h
  by_cases hceq : ceq = '='
  case neg =>
    cases e0 : (ceq :: s2) with
    | nil => simp at e0
    | cons x xs =>
      obtain ⟨rfl, rfl⟩ := List.cons.inj e0
      simp [eqStage3, hceq] at h
  case pos =>
  subst hceq
  simp only [eqStage3] at h
  cases e3 : s2.dropWhile isPySpace with
  | nil => rw [e3] at h; simp [quote3Stage] at h
  | cons cq s3 =>
  rw [e3] at h
  by_cases hcq : cq = '"'
  case neg => simp [quote3Stage, hcq] at h
  case pos =>
  subst hcq
  simp only [quote3Stage] at h
  cases e4 : s3.dropWhile isVerChar with
  | nil => rw [e4] at h; simp [verStage3] at h
  | cons cq2 r' =>
  rw [e4] at h
  by_cases hcq2 : cq2 = '"'
  case neg => simp [verStage3, hcq2] at h
  case pos =>
  subst hcq2
  simp only [verStage3] at h
  by_cases hv0 : s3.takeWhile isVerChar = []
  · rw [if_pos hv0] at h; simp at h
  · rw [if_neg hv0] at h
    simp only [Option.some.injEq, Prod.mk.injEq] at h
    obtain ⟨hg1, hv, hg2, hr⟩ := h
    subst hg1 hv hg2 hr
    refine ⟨s1.takeWhile isPySpace, s2.takeWhile isPySpace,
      fun c hc => List.mem_takeWhile_imp hc,
      fun c hc => List.mem_takeWhile_imp hc, hv0,
      fun c hc => List.mem_takeWhile_imp hc, by simp, rfl, ?_⟩
    have hs : s = shapeChars ++ s1 := stripLit_eq_some.mp e1
    have h1 : s1.takeWhile isPySpace ++ ('=' :: s2) = s1 := by
      rw [← e2]; exact List.takeWhile_append_dropWhile isPySpace s1
    have h2 : s2.takeWhile isPySpace ++ ('"' :: s3) = s2 := by
      rw [← e3]; exact List.takeWhile_append_dropWhile isPySpace s2
    have h4 : s3.takeWhile isVerChar ++ ('"' :: r') = s3 := by
      rw [← e4]; exact List.takeWhile_append_dropWhile isVerChar s3
    have hs2 : s2 = List.takeWhile isPySpace s2 ++
        ('"' :: (List.takeWhile isVerChar s3 ++ '"' :: r')) := by
      conv_lhs => rw [← h2]
      rw [h4]
    have hs1 : s1 = List.takeWhile isPySpace s1 ++
        ('=' :: (List.takeWhile isPySpace s2 ++
          ('"' :: (List.takeWhile isVerChar s3 ++ '"' :: r')))) := by
      conv_lhs => rw [← h1, hs2]
    rw [hs]
    conv_lhs => rw [hs1]
    simp [List.append_assoc]

theorem M3run_complete {ws1 ws2 v r : List Char}
    (hws1 : ∀ c ∈ ws1, isPySpace c = true) (hws2 : ∀ c ∈ ws2, isPySpace c = true)
    (hv : v ≠ []) (hvc : ∀ c ∈ v, isVerChar c = true) :
    M3run (shapeChars ++ ws1 ++ ['='] ++ ws2 ++ ['"'] ++ v ++ ['"'] ++ r) =
      some (shapeChars ++ ws1 ++ ['='] ++ ws2 ++ ['"'], v, ['"'], r) := by
  unfold M3run
  rw [show shapeChars ++ ws1 ++ ['='] ++ ws2 ++ ['"'] ++ v ++ ['"'] ++ r
      = shapeChars ++ (ws1 ++ ('=' :: (ws2 ++ ('"' :: (v ++ ('"' :: r)))))) by simp]
  rw [stripLit_eq_some.mpr rfl]
  simp only [spaceStage3]
  obtain ⟨ht1, hd1⟩ := takeWhile_all_cons (b := '=') hws1 (by decide)
    (t := ws2 ++ ('"' :: (v ++ ('"' :: r))))
  rw [ht1, hd1]
  simp only [eqStage3]
  obtain ⟨ht2, hd2⟩ := takeWhile_all_cons (b := '"') hws2 (by decide)
    (t := v ++ ('"' :: r))
  rw [ht2, hd2]
  simp only [quote3Stage]
  obtain ⟨ht3, hd3⟩ := takeWhile_all_cons (b := '"') hvc (by decide) (t := r)
  rw [ht3, hd3]
  simp only [verStage3, if_neg hv]

/- ------------------------------------------------------------------ -/
/- Soundness corollaries and unfolding of the scanner.                -/
/- ------------------------------------------------------------------ -/

theorem M1run_sound {s g1 v g2 r : List Char} (h : M1run s = some (g1, v, g2, r)) :
    s = g1 ++ v ++ g2 ++ r ∧ g1 ≠ [] := by
  obtain ⟨ws, q1, q2, _, _, _, _, _, hg1, hg2, hsq⟩ := M1run_eq_some h
  subst hg1 hg2
  exact ⟨by rw [hsq], by simp [implChars]⟩

theorem M2run_sound {s g1 v g2 r : List Char} (h : M2run s = some (g1, v, g2, r)) :
    s = g1 ++ v ++ g2 ++ r ∧ g1 ≠ [] := by
  obtain ⟨ws, q1, q2, _, _, _, _, _, hg1, hg2, hsq⟩ := M2run_eq_some h
  subst hg1 hg2
  exact ⟨by rw [hsq], by simp [implChars]⟩

theorem M3run_sound {s g1 v g2 r : List Char} (h : M3run s = some (g1, v, g2, r)) :
    s = g1 ++ v ++ g2 ++ r ∧ g1 ≠ [] := by
  obtain ⟨ws1, ws2, _, _, _, _, hg1, hg2, hsq⟩ := M3run_eq_some h
  subst hg1 hg2
  exact ⟨by rw [hsq], by simp [shapeChars]⟩

theorem match_rest_lt {m : Matcher}
    (hs : ∀ s g1 v g2 r, m s = some (g1, v, g2, r) → s = g1 ++ v ++ g2 ++ r ∧ g1 ≠ [])
    {s g1 v g2 r : List Char} (h : m s = some (g1, v, g2, r)) :
    r.length < s.length := by
  obtain ⟨hsq, hg⟩ := hs _ _ _ _ _ h
  have : 0 < g1.length := List.length_pos.mpr hg
  rw [hsq]; simp [List.length_append]; omega

theorem reSubF_nil {m : Matcher} {V : List Char} (n : Nat) : reSubF m V n [] = [] := by
  cases n <;> rfl

theorem decompF_nil {m : Matcher} (n : Nat) : decompF m n [] = [] := by
  cases n <;> rfl

theorem reSubF_fuel {m : Matcher}
    (hs : ∀ s g1 v g2 r, m s = some (g1, v, g2, r) → s = g1 ++ v ++ g2 ++ r ∧ g1 ≠ [])
    (V : List Char) :
    ∀ n n' l, l.length ≤ n → l.length ≤ n' → reSubF m V n l = reSubF m V n' l := by
  intro n
  induction n with
  | zero =>
    intro n' l hn _
    have : l = [] := List.length_eq_zero.mp (Nat.le_zero.mp hn)
    subst this
    rw [reSubF_nil, reSubF_nil]
  | succ k ih =>
    intro n' l hn hn'
    cases l with
    | nil => rw [reSubF_nil, reSubF_nil]
    | cons c cs =>
      cases n' with
      | zero => simp at hn'
      | succ k' =>
        simp only [reSubF]
        cases e : m (c :: cs) with
        | none =>
          have hlen : cs.length ≤ k := by simpa using hn
          have hlen' : cs.length ≤ k' := by simpa using hn'
          rw [ih k' cs hlen hlen']
        | some parts =>
          obtain ⟨g1, v, g2, r⟩ := parts
          have hr : r.length < (c :: cs).length := match_rest_lt hs e
          have hlen : r.length ≤ k := by simp at hr hn ⊢; omega
          have hlen' : r.length ≤ k' := by simp at hr hn' ⊢; omega
          show g1 ++ V ++ g2 ++ reSubF m V k r = g1 ++ V ++ g2 ++ reSubF m V k' r
          rw [ih k' r hlen hlen']

theorem decompF_fuel {m : Matcher}
    (hs : ∀ s g1 v g2 r, m s = some (g1, v, g2, r) → s = g1 ++ v ++ g2 ++ r ∧ g1 ≠ [])
    : ∀ n n' l, l.length ≤ n → l.length ≤ n' → decompF m n l = decompF m n' l := by
  intro n
  induction n with
  | zero =>
    intro n' l hn _
    have : l = [] := List.length_eq_zero.mp (Nat.le_zero.mp hn)
    subst this
    rw [decompF_nil, decompF_nil]
  | succ k ih =>
    intro n' l hn hn'
    cases l with
    | nil => rw [decompF_nil, decompF_nil]
    | cons c cs =>
      cases n' with
      | zero => simp at hn'
      | succ k' =>
        simp only [decompF]
        cases e : m (c :: cs) with
        | none =>
          have hlen : cs.length ≤ k := by simpa using hn
          have hlen' : cs.length ≤ k' := by simpa using hn'
          rw [ih k' cs hlen hlen']
        | some parts =>
          obtain ⟨g1, v, g2, r⟩ := parts
          have hr : r.length < (c :: cs).length := match_rest_lt hs e
          have hlen : r.length ≤ k := by simp at hr hn ⊢; omega
          have hlen' : r.length ≤ k' := by simp at hr hn' ⊢; omega
          show SubPiece.hit g1 v g2 :: decompF m k r = SubPiece.hit g1 v g2 :: decompF m k' r
          rw [ih k' r hlen hlen']

theorem reSub_cons_none {m : Matcher} {V : List Char} {c : Char} {cs : List Char}
    (e : m (c :: cs) = none) : reSub m V (c :: cs) = c :: reSub m V cs := by
  unfold reSub
  simp only [List.length_cons, reSubF, e]

theorem reSub_eq_some {m : Matcher}
    (hs : ∀ s g1 v g2 r, m s = some (g1, v, g2, r) → s = g1 ++ v ++ g2 ++ r ∧ g1 ≠ [])
    {V s g1 v g2 r : List Char} (e : m s = some (g1, v, g2, r)) :
    reSub m V s = g1 ++ V ++ g2 ++ reSub m V r := by
  cases s with
  | nil =>
    obtain ⟨hsq, hg⟩ := hs _ _ _ _ _ e
    cases g1 with
    | nil => exact absurd rfl hg
    | cons a as => simp at hsq
  | cons c cs =>
    unfold reSub
    simp only [List.length_cons, reSubF, e]
    have hr : r.length < (c :: cs).length := match_rest_lt hs e
    rw [reSubF_fuel hs V cs.length r.length r (by simp at hr; omega) le_rfl]

theorem decomp_cons_none {m : Matcher} {c : Char} {cs : List Char}
    (e : m (c :: cs) = none) : decomp m (c :: cs) = SubPiece.lit c :: decomp m cs := by
  unfold decomp
  simp only [List.length_cons, decompF, e]

theorem decomp_eq_some {m : Matcher}
    (hs : ∀ s g1 v g2 r, m s = some (g1, v, g2, r) → s = g1 ++ v ++ g2 ++ r ∧ g1 ≠ [])
    {s g1 v g2 r : List Char} (e : m s = some (g1, v, g2, r)) :
    decomp m s = SubPiece.hit g1 v g2 :: decomp m r := by
  cases s with
  | nil =>
    obtain ⟨hsq, hg⟩ := hs _ _ _ _ _ e
    cases g1 with
    | nil => exact absurd rfl hg
    | cons a as => simp at hsq
  | cons c cs =>
    unfold decomp
    simp only [List.length_cons, decompF, e]
    have hr : r.length < (c :: cs).length := match_rest_lt hs e
    rw [decompF_fuel hs cs.length r.length r (by simp at hr; omega) le_rfl]

/- ------------------------------------------------------------------ -/
/- The decomposition induced by one scan.                             -/
/- ------------------------------------------------------------------ -/

theorem decomp_orig_le {m : Matcher}
    (hs : ∀ s g1 v g2 r, m s = some (g1, v, g2, r) → s = g1 ++ v ++ g2 ++ r ∧ g1 ≠ []) :
    ∀ n l, l.length ≤ n → flatPieces origOf (decomp m l) = l := by
  intro n
  induction n with
  | zero =>
    intro l hl
    have : l = [] := List.length_eq_zero.mp (Nat.le_zero.mp hl)
    subst this; rfl
  | succ k ih =>
    intro l hl
    cases l with
    | nil => rfl
    | cons c cs =>
      cases e : m (c :: cs) with
      | none =>
        rw [decomp_cons_none e]
        simp only [flatPieces, origOf]
        rw [ih cs (by simpa using hl)]
        rfl
      | some parts =>
        obtain ⟨g1, v, g2, r⟩ := parts
        rw [decomp_eq_some hs e]
        simp only [flatPieces, origOf]
        rw [ih r (by have := match_rest_lt hs e; simp at this hl ⊢; omega)]
        exact ((hs _ _ _ _ _ e).1).symm

theorem decomp_orig {m : Matcher}
    (hs : ∀ s g1 v g2 r, m s = some (g1, v, g2, r) → s = g1 ++ v ++ g2 ++ r ∧ g1 ≠ [])
    (l : List Char) : flatPieces origOf (decomp m l) = l :=
  decomp_orig_le hs l.length l le_rfl

theorem reSub_render_le {m : Matcher}
    (hs : ∀ s g1 v g2 r, m s = some (g1, v, g2, r) → s = g1 ++ v ++ g2 ++ r ∧ g1 ≠ [])
    (V : List Char) :
    ∀ n l, l.length ≤ n → reSub m V l = flatPieces (newOf V) (decomp m l) := by
  intro n
  induction n with
  | zero =>
    intro l hl
    have : l = [] := List.length_eq_zero.mp (Nat.le_zero.mp hl)
    subst this; rfl
  | succ k ih =>
    intro l hl
    cases l with
    | nil => rfl
    | cons c cs =>
      cases e : m (c :: cs) with
      | none =>
        rw [decomp_cons_none e, reSub_cons_none e]
        simp only [flatPieces, newOf]
        rw [ih cs (by simpa using hl)]
        rfl
      | some parts =>
        obtain ⟨g1, v, g2, r⟩ := parts
        rw [decomp_eq_some hs e, reSub_eq_some hs e]
        simp only [flatPieces, newOf]
        rw [ih r (by have := match_rest_lt hs e; simp at this hl ⊢; omega)]

theorem reSub_render {m : Matcher}
    (hs : ∀ s g1 v g2 r, m s = some (g1, v, g2, r) → s = g1 ++ v ++ g2 ++ r ∧ g1 ≠ [])
    (V l : List Char) : reSub m V l = flatPieces (newOf V) (decomp m l) :=
  reSub_render_le hs V l.length l le_rfl

theorem decomp_hits_le {m : Matcher}
    (hs : ∀ s g1 v g2 r, m s = some (g1, v, g2, r) → s = g1 ++ v ++ g2 ++ r ∧ g1 ≠ []) :
    ∀ n l, l.length ≤ n → ∀ g1 v g2, SubPiece.hit g1 v g2 ∈ decomp m l →
      ∃ s r, s <:+ l ∧ m s = some (g1, v, g2, r) := by
  intro n
  induction n with
  | zero =>
    intro l hl g1 v g2 hmem
    have : l = [] := List.length_eq_zero.mp (Nat.le_zero.mp hl)
    subst this; simp [decomp, decompF] at hmem
  | succ k ih =>
    intro l hl g1 v g2 hmem
    cases l with
    | nil => simp [decomp, decompF] at hmem
    | cons c cs =>
      cases e : m (c :: cs) with
      | none =>
        rw [decomp_cons_none e] at hmem
        rcases List.mem_cons.mp hmem with hbad | hmem'
        · cases hbad
        · obtain ⟨s, r, hsfx, hrun⟩ := ih cs (by simpa using hl) g1 v g2 hmem'
          exact ⟨s, r, hsfx.trans ⟨[c], rfl⟩, hrun⟩
      | some parts =>
        obtain ⟨g1', v', g2', r'⟩ := parts
        rw [decomp_eq_some hs e] at hmem
        rcases List.mem_cons.mp hmem with heq | hmem'
        · obtain ⟨rfl, rfl, rfl⟩ : g1' = g1 ∧ v' = v ∧ g2' = g2 := by
            cases heq; exact ⟨rfl, rfl, rfl⟩
          exact ⟨c :: cs, r', List.suffix_rfl, e⟩
        · have hr : r' <:+ c :: cs := ⟨g1' ++ v' ++ g2', ((hs _ _ _ _ _ e).1).symm⟩
          obtain ⟨s, r, hsfx, hrun⟩ := ih r'
            (by have := match_rest_lt hs e; simp at this hl ⊢; omega) g1 v g2 hmem'
          exact ⟨s, r, hsfx.trans hr, hrun⟩

theorem decomp_hits {m : Matcher}
    (hs : ∀ s g1 v g2 r, m s = some (g1, v, g2, r) → s = g1 ++ v ++ g2 ++ r ∧ g1 ≠ [])
    {l g1 v g2 : List Char} (hmem : SubPiece.hit g1 v g2 ∈ decomp m l) :
    ∃ s r, s <:+ l ∧ m s = some (g1, v, g2, r) :=
  decomp_hits_le hs l.length l le_rfl g1 v g2 hmem

theorem decomp_complete_le {m : Matcher}
    (hs : ∀ s g1 v g2 r, m s = some (g1, v, g2, r) → s = g1 ++ v ++ g2 ++ r ∧ g1 ≠ []) :
    ∀ n l, l.length ≤ n → ∀ a c b, decomp m l = a ++ SubPiece.lit c :: b →
      m (c :: flatPieces origOf b) = none := by
  intro n
  induction n with
  | zero =>
    intro l hl a c b hdec
    have : l = [] := List.length_eq_zero.mp (Nat.le_zero.mp hl)
    subst this
    simp [decomp, decompF] at hdec
  | succ k ih =>
    intro l hl a c b hdec
    cases l with
    | nil =>
      simp [decomp, decompF] at hdec
    | cons c0 cs =>
      cases e : m (c0 :: cs) with
      | none =>
        rw [decomp_cons_none e] at hdec
        cases a with
        | nil =>
          simp only [List.nil_append, List.cons.injEq] at hdec
          obtain ⟨hc, hb⟩ := hdec
          cases hc
          rw [← hb, decomp_orig_le hs k cs (by simpa using hl)]
          exact e
        | cons p a' =>
          simp only [List.cons_append, List.cons.injEq] at hdec
          exact ih cs (by simpa using hl) a' c b hdec.2
      | some parts =>
        obtain ⟨g1, v, g2, r⟩ := parts
        rw [decomp_eq_some hs e] at hdec
        cases a with
        | nil => simp at hdec
        | cons p a' =>
          simp only [List.cons_append, List.cons.injEq] at hdec
          exact ih r (by have := match_rest_lt hs e; simp at this hl ⊢; omega) a' c b hdec.2

theorem decomp_complete {m : Matcher}
    (hs : ∀ s g1 v g2 r, m s = some (g1, v, g2, r) → s = g1 ++ v ++ g2 ++ r ∧ g1 ≠ [])
    {l : List Char} {a : List SubPiece} {c : Char} {b : List SubPiece}
    (hdec : decomp m l = a ++ SubPiece.lit c :: b) :
    m (c :: flatPieces origOf b) = none :=
  decomp_complete_le hs l.length l le_rfl a c b hdec

/- ------------------------------------------------------------------ -/
/- Documents without any match are left untouched.                    -/
/- ------------------------------------------------------------------ -/

theorem reSub_id_of_none {m : Matcher} {V l : List Char}
    (h : ∀ t, t <:+ l → m t = none) : reSub m V l = l := by
  induction l with
  | nil => rfl
  | cons c cs ih =>
    rw [reSub_cons_none (h _ List.suffix_rfl)]
    rw [ih fun t ht => h t (ht.trans ⟨[c], rfl⟩)]

theorem noMatchCheck_spec {l : List Char} (h : noMatchCheck l = true) :
    ∀ t, t <:+ l → M1run t = none ∧ M2run t = none ∧ M3run t = none := by
  intro t ht
  have hmem : t ∈ l.tails := (List.mem_tails t l).mpr ht
  have := List.all_eq_true.mp h t hmem
  simp only [Bool.and_eq_true, Option.isNone_iff_eq_none] at this
  exact ⟨this.1.1, this.1.2, this.2⟩

theorem substituteContent_id {V l : List Char} (h : noMatchCheck l = true) :
    substituteContent V l = l := by
  unfold substituteContent
  rw [reSub_id_of_none fun t ht => (noMatchCheck_spec h t ht).1]
  rw [reSub_id_of_none fun t ht => (noMatchCheck_spec h t ht).2.1]
  exact reSub_id_of_none fun t ht => (noMatchCheck_spec h t ht).2.2

/- ------------------------------------------------------------------ -/
/- Claim theorems: error handling and script-level behavior.          -/
/- ------------------------------------------------------------------ -/

/-- C2: if the LATEST_VERSION environment variable is absent or is the
empty string, the process terminates with exit status 1, performs no file
access, and the README file on disk is byte-for-byte unchanged. -/
theorem c2_missing_version (env : List Char → Option (List Char))
    (file : Option (List Char))
    (h : env latestVersionName = none ∨ env latestVersionName = some []) :
    runScript env file = ⟨1, file, [], none⟩ := by
  rcases h with h | h <;> simp [runScript, h]

theorem c2_missing_version_witness :
    ((fun _ : List Char => (none : Option (List Char))) latestVersionName = none ∨
      (fun _ : List Char => (none : Option (List Char))) latestVersionName = some []) ∧
    runScript (fun _ => none) (some ['x']) = ⟨1, some ['x'], [], none⟩ :=
  ⟨Or.inl rfl, c2_missing_version (fun _ => none) (some ['x']) (Or.inl rfl)⟩

/-- C6: if the README file cannot be read, the operation fails with a
propagated filesystem error, terminates with a nonzero status, and no
write is attempted (no output file is written). -/
theorem c6_read_failure (env : List Char → Option (List Char)) (v : List Char)
    (hv : env latestVersionName = some v) (hne : v ≠ []) :
    runScript env none = ⟨1, none, [FileOp.readAttempt], some ScriptErr.fsError⟩ ∧
    (runScript env none).exitCode ≠ 0 ∧
    FileOp.writeAttempt ∉ (runScript env none).ops ∧
    (runScript env none).file = none := by
  have h1 : runScript env none =
      ⟨1, none, [FileOp.readAttempt], some ScriptErr.fsError⟩ := by
    simp [runScript, hv, hne]
  refine ⟨h1, ?_, ?_, ?_⟩ <;> rw [h1] <;> simp

theorem c6_read_failure_witness :
    (fun _ : List Char => some ['1']) latestVersionName = some ['1'] ∧
    runScript (fun _ => some ['1']) none =
      ⟨1, none, [FileOp.readAttempt], some ScriptErr.fsError⟩ :=
  ⟨rfl, (c6_read_failure (fun _ => some ['1']) ['1'] rfl (by simp)).1⟩

/-- C10: the transform is deterministic and depends on nothing in the
environment other than the LATEST_VERSION variable: two runs with the
same README contents and environments that agree on LATEST_VERSION
produce identical results. -/
theorem c10_determinism (env1 env2 : List Char → Option (List Char))
    (file : Option (List Char))
    (h : env1 latestVersionName = env2 latestVersionName) :
    runScript env1 file = runScript env2 file := by
  unfold runScript
  rw [h]

theorem c10_determinism_witness :
    (fun _ : List Char => some ['1']) latestVersionName =
      (fun n : List Char => if n = latestVersionName then some ['1'] else none)
        latestVersionName ∧
    runScript (fun _ => some ['1']) (some ['y']) =
      runScript (fun n => if n = latestVersionName then some ['1'] else none)
        (some ['y']) := by
  constructor
  · simp
  · exact c10_determinism _ _ (some ['y']) (by simp)

/- ------------------------------------------------------------------ -/
/- Claim theorems: the substitution itself.                           -/
/- ------------------------------------------------------------------ -/

/-- C9: the new version string is inserted verbatim.  The replacement is
an ordinary function of the match (not a template), so even characters
that are special in regex replacement syntax (backslashes, group
references, quotes) are emitted exactly as they appear in the
environment value: every stage rewrites each match `g1 ++ v ++ g2` to
literally `g1 ++ V ++ g2` (see `newOf`), for every `V` whatsoever. -/
theorem c9_verbatim_insertion (V l : List Char) :
    substituteContent V l =
      flatPieces (newOf V) (decomp M3run
        (flatPieces (newOf V) (decomp M2run
          (flatPieces (newOf V) (decomp M1run l))))) := by
  unfold substituteContent
  rw [reSub_render (fun _ _ _ _ _ h => M1run_sound h) V l]
  rw [reSub_render (fun _ _ _ _ _ h => M2run_sound h) V _]
  rw [reSub_render (fun _ _ _ _ _ h => M3run_sound h) V _]

/-- C5: within every match of each of the three patterns the captured
prefix and suffix groups are re-emitted byte-for-byte; only the version
segment between them is replaced by `V`. -/
theorem c5_groups_preserved (V l g1 v g2 r : List Char) :
    (M1run l = some (g1, v, g2, r) →
      reSub M1run V l = g1 ++ V ++ g2 ++ reSub M1run V r ∧ IsInst1 g1 v g2) ∧
    (M2run l = some (g1, v, g2, r) →
      reSub M2run V l = g1 ++ V ++ g2 ++ reSub M2run V r ∧ IsInst2 g1 v g2) ∧
    (M3run l = some (g1, v, g2, r) →
      reSub M3run V l = g1 ++ V ++ g2 ++ reSub M3run V r ∧ IsInst3 g1 v g2) := by
  refine ⟨fun e => ⟨reSub_eq_some (fun _ _ _ _ _ h => M1run_sound h) e, ?_⟩,
    fun e => ⟨reSub_eq_some (fun _ _ _ _ _ h => M2run_sound h) e, ?_⟩,
    fun e => ⟨reSub_eq_some (fun _ _ _ _ _ h => M3run_sound h) e, ?_⟩⟩
  · obtain ⟨ws, q1, q2, h1, h2, h3, h4, h5, h6, h7, _⟩ := M1run_eq_some e
    exact ⟨ws, q1, q2, h1, h2, h3, h4, h5, h6, h7⟩
  · obtain ⟨ws, q1, q2, h1, h2, h3, h4, h5, h6, h7, _⟩ := M2run_eq_some e
    exact ⟨ws, q1, q2, h1, h2, h3, h4, h5, h6, h7⟩
  · obtain ⟨ws1, ws2, h1, h2, h3, h4, h5, h6, _⟩ := M3run_eq_some e
    exact ⟨ws1, ws2, h1, h2, h3, h4, h5, h6⟩

theorem c5_groups_preserved_witness :
    M1run ("implementation \"io.github.dp-hridayan:shapeindicators:1.0\"".toList) =
      some ("implementation \"io.github.dp-hridayan:shapeindicators:".toList,
        ['1', '.', '0'], ['"'], []) ∧
    reSub M1run ['2'] ("implementation \"io.github.dp-hridayan:shapeindicators:1.0\"".toList) =
      "implementation \"io.github.dp-hridayan:shapeindicators:".toList ++ ['2'] ++ ['"'] ++
        reSub M1run ['2'] [] := by
  constructor
  · decide
  · exact ((c5_groups_preserved ['2']
      ("implementation \"io.github.dp-hridayan:shapeindicators:1.0\"".toList)
      ("implementation \"io.github.dp-hridayan:shapeindicators:".toList)
      ['1', '.', '0'] ['"'] []).1 (by decide)).1

/-- C4: frame property over every document.  Each of the three scans
decomposes an arbitrary input into the characters it passes over
(`lit` pieces) and the matches it finds (`hit` pieces): the pieces
flatten back to the input, the output is the flattening in which only
the `hit` pieces are rewritten, every passed-over character is
re-emitted unchanged (`newOf` and `origOf` agree on `lit` pieces, so the
portion of the document outside the matches is emitted byte-for-byte, in
order), and no match of the pattern starts at any passed-over character.
In particular a document containing no occurrence of any of the three
shapes — version-like numeric strings in unrelated prose included — is
returned completely unchanged by the whole substitutor. -/
theorem c4_frame (V l : List Char) :
    (∀ m ∈ [M1run, M2run, M3run],
      flatPieces origOf (decomp m l) = l ∧
      reSub m V l = flatPieces (newOf V) (decomp m l) ∧
      (∀ c, newOf V (SubPiece.lit c) = origOf (SubPiece.lit c)) ∧
      (∀ a c b, decomp m l = a ++ SubPiece.lit c :: b →
        m (c :: flatPieces origOf b) = none)) ∧
    (noMatchCheck l = true → substituteContent V l = l) := by
  refine ⟨?_, fun h => substituteContent_id h⟩
  intro m hm
  have hm3 : m = M1run ∨ m = M2run ∨ m = M3run := by simpa using hm
  rcases hm3 with rfl | rfl | rfl
  · exact ⟨decomp_orig (fun _ _ _ _ _ h => M1run_sound h) l,
      reSub_render (fun _ _ _ _ _ h => M1run_sound h) V l,
      fun c => rfl,
      fun a c b hdec => decomp_complete (fun _ _ _ _ _ h => M1run_sound h) hdec⟩
  · exact ⟨decomp_orig (fun _ _ _ _ _ h => M2run_sound h) l,
      reSub_render (fun _ _ _ _ _ h => M2run_sound h) V l,
      fun c => rfl,
      fun a c b hdec => decomp_complete (fun _ _ _ _ _ h => M2run_sound h) hdec⟩
  · exact ⟨decomp_orig (fun _ _ _ _ _ h => M3run_sound h) l,
      reSub_render (fun _ _ _ _ _ h => M3run_sound h) V l,
      fun c => rfl,
      fun a c b hdec => decomp_complete (fun _ _ _ _ _ h => M3run_sound h) hdec⟩

theorem c4_frame_witness :
    M1run ∈ [M1run, M2run, M3run] ∧
    flatPieces origOf (decomp M1run
        ("v 1.2.3; implementation \"io.github.dp-hridayan:shapeindicators:1.0\"".toList)) =
      "v 1.2.3; implementation \"io.github.dp-hridayan:shapeindicators:1.0\"".toList ∧
    reSub M1run ['9']
        ("v 1.2.3; implementation \"io.github.dp-hridayan:shapeindicators:1.0\"".toList) =
      flatPieces (newOf ['9']) (decomp M1run
        ("v 1.2.3; implementation \"io.github.dp-hridayan:shapeindicators:1.0\"".toList)) ∧
    noMatchCheck ("see version 1.2.3 of shapeindicators".toList) = true ∧
    substituteContent ['9'] ("see version 1.2.3 of shapeindicators".toList) =
      "see version 1.2.3 of shapeindicators".toList :=
  ⟨List.mem_cons_self _ _,
   ((c4_frame ['9']
      ("v 1.2.3; implementation \"io.github.dp-hridayan:shapeindicators:1.0\"".toList)).1
        M1run (List.mem_cons_self _ _)).1,
   ((c4_frame ['9']
      ("v 1.2.3; implementation \"io.github.dp-hridayan:shapeindicators:1.0\"".toList)).1
        M1run (List.mem_cons_self _ _)).2.1,
   by decide,
   (c4_frame ['9'] ("see version 1.2.3 of shapeindicators".toList)).2 (by decide)⟩

/-- C1: for every nonempty version `V` and every document, each scan of
the substitutor decomposes its input into passed-over characters and
non-overlapping matches of its pattern; every match is a genuine pattern
instance and has its version segment (whatever prior version it holds)
replaced by `V` while its captured groups are re-emitted unchanged;
passed-over characters are emitted identically; and no match of the
pattern starts at any passed-over character (every match is replaced).
The three scans run in order: pattern 1 on the document, pattern 2 on
the result, pattern 3 on that result. -/
theorem c1_replaces_every_match (V l : List Char) (hV : V ≠ []) :
    substituteContent V l =
      reSub M3run V (reSub M2run V (reSub M1run V l)) ∧
    (flatPieces origOf (decomp M1run l) = l ∧
      reSub M1run V l = flatPieces (newOf V) (decomp M1run l) ∧
      (∀ g1 v g2, SubPiece.hit g1 v g2 ∈ decomp M1run l → IsInst1 g1 v g2) ∧
      (∀ a c b, decomp M1run l = a ++ SubPiece.lit c :: b →
        M1run (c :: flatPieces origOf b) = none)) ∧
    (flatPieces origOf (decomp M2run (reSub M1run V l)) = reSub M1run V l ∧
      reSub M2run V (reSub M1run V l) =
        flatPieces (newOf V) (decomp M2run (reSub M1run V l)) ∧
      (∀ g1 v g2, SubPiece.hit g1 v g2 ∈ decomp M2run (reSub M1run V l) →
        IsInst2 g1 v g2) ∧
      (∀ a c b, decomp M2run (reSub M1run V l) = a ++ SubPiece.lit c :: b →
        M2run (c :: flatPieces origOf b) = none)) ∧
    (flatPieces origOf (decomp M3run (reSub M2run V (reSub M1run V l))) =
        reSub M2run V (reSub M1run V l) ∧
      reSub M3run V (reSub M2run V (reSub M1run V l)) =
        flatPieces (newOf V) (decomp M3run (reSub M2run V (reSub M1run V l))) ∧
      (∀ g1 v g2,
        SubPiece.hit g1 v g2 ∈ decomp M3run (reSub M2run V (reSub M1run V l)) →
        IsInst3 g1 v g2) ∧
      (∀ a c b,
        decomp M3run (reSub M2run V (reSub M1run V l)) = a ++ SubPiece.lit c :: b →
        M3run (c :: flatPieces origOf b) = none)) := by
  refine ⟨rfl, ⟨?_, ?_, ?_, ?_⟩, ⟨?_, ?_, ?_, ?_⟩, ⟨?_, ?_, ?_, ?_⟩⟩
  · exact decomp_orig (fun _ _ _ _ _ h => M1run_sound h) l
  · exact reSub_render (fun _ _ _ _ _ h => M1run_sound h) V l
  · intro g1 v g2 hmem
    obtain ⟨s, r, _, hrun⟩ := decomp_hits (fun _ _ _ _ _ h => M1run_sound h) hmem
    obtain ⟨ws, q1, q2, h1, h2, h3, h4, h5, h6, h7, _⟩ := M1run_eq_some hrun
    exact ⟨ws, q1, q2, h1, h2, h3, h4, h5, h6, h7⟩
  · intro a c b hdec
    exact decomp_complete (fun _ _ _ _ _ h => M1run_sound h) hdec
  · exact decomp_orig (fun _ _ _ _ _ h => M2run_sound h) _
  · exact reSub_render (fun _ _ _ _ _ h => M2run_sound h) V _
  · intro g1 v g2 hmem
    obtain ⟨s, r, _, hrun⟩ := decomp_hits (fun _ _ _ _ _ h => M2run_sound h) hmem
    obtain ⟨ws, q1, q2, h1, h2, h3, h4, h5, h6, h7, _⟩ := M2run_eq_some hrun
    exact ⟨ws, q1, q2, h1, h2, h3, h4, h5, h6, h7⟩
  · intro a c b hdec
    exact decomp_complete (fun _ _ _ _ _ h => M2run_sound h) hdec
  · exact decomp_orig (fun _ _ _ _ _ h => M3run_sound h) _
  · exact reSub_render (fun _ _ _ _ _ h => M3run_sound h) V _
  · intro g1 v g2 hmem
    obtain ⟨s, r, _, hrun⟩ := decomp_hits (fun _ _ _ _ _ h => M3run_sound h) hmem
    obtain ⟨ws1, ws2, h1, h2, h3, h4, h5, h6, _⟩ := M3run_eq_some hrun
    exact ⟨ws1, ws2, h1, h2, h3, h4, h5, h6⟩
  · intro a c b hdec
    exact decomp_complete (fun _ _ _ _ _ h => M3run_sound h) hdec

theorem c1_replaces_every_match_witness :
    (['2', '.', '0'] : List Char) ≠ [] ∧
    substituteContent ['2', '.', '0']
        ("implementation \"io.github.dp-hridayan:shapeindicators:1.0\"".toList) =
      reSub M3run ['2', '.', '0'] (reSub M2run ['2', '.', '0']
        (reSub M1run ['2', '.', '0']
          ("implementation \"io.github.dp-hridayan:shapeindicators:1.0\"".toList))) :=
  ⟨by decide, (c1_replaces_every_match ['2', '.', '0']
    ("implementation \"io.github.dp-hridayan:shapeindicators:1.0\"".toList)
    (by decide)).1⟩

/-- C3 fails as stated: with the version string `9"x` (legal under the
script's only precondition, nonemptiness) the substitutor is not
idempotent, because the quote inside the inserted version creates a new
match of pattern 1 that a second run rewrites again. -/
theorem c3_counterexample :
    substituteContent ("9\"x".toList)
        (substituteContent ("9\"x".toList)
          ("implementation \"io.github.dp-hridayan:shapeindicators:1.0\"".toList)) ≠
      substituteContent ("9\"x".toList)
        ("implementation \"io.github.dp-hridayan:shapeindicators:1.0\"".toList) := by
  decide

/-- C8 fails as stated: a line whose prior version segment contains the
non-digit-dot character `"` is not left unchanged: the scan closes the
match at that embedded quote and rewrites the digits before it. -/
theorem c8_counterexample :
    substituteContent ("7.7".toList)
        ("implementation \"io.github.dp-hridayan:shapeindicators:1.0\"9\"".toList) ≠
      "implementation \"io.github.dp-hridayan:shapeindicators:1.0\"9\"".toList := by
  decide

/- ------------------------------------------------------------------ -/
/- Occurrence combinatorics: the pattern literals cannot occur inside  -/
/- a match except where expected.                                      -/
/- ------------------------------------------------------------------ -/

theorem no_pre_of_head_ne {a b : Char} {as bs : List Char} (h : a ≠ b) :
    ¬ (a :: as <+: b :: bs) :=
  fun hp => h (List.cons_prefix_cons.mp hp).1

theorem no_pre_two {a1 a2 b1 b2 : Char} {as bs : List Char} (h : a2 ≠ b2) :
    ¬ (a1 :: a2 :: as <+: b1 :: b2 :: bs) :=
  fun hp => h (List.cons_prefix_cons.mp (List.cons_prefix_cons.mp hp).2).1

theorem suffix_append_cases' {z A B : List Char} (h : z <:+ A ++ B) :
    z <:+ B ∨ ∃ t, t <:+ A ∧ t ≠ [] ∧ z = t ++ B := by
  rcases suffix_append_cases h with h | ⟨t, ht, rfl⟩
  · exact Or.inl h
  · cases t with
    | nil => exact Or.inl (by simp)
    | cons c cs => exact Or.inr ⟨c :: cs, ht, by simp, rfl⟩

theorem suffix_singleton {z : List Char} {a : Char} (h : z <:+ [a]) (hne : z ≠ []) :
    z = [a] := by
  obtain ⟨u, hu⟩ := h
  cases u with
  | nil => simpa using hu
  | cons c cs =>
    simp only [List.cons_append, List.cons.injEq] at hu
    exact absurd (List.append_eq_nil.mp hu.2).2 hne

theorem suffix_cons_cases {z : List Char} {a : Char} {B : List Char} (h : z <:+ a :: B) :
    z <:+ B ∨ z = a :: B := by
  obtain ⟨u, hu⟩ := h
  cases u with
  | nil => right; simpa using hu
  | cons c cs =>
    left
    simp only [List.cons_append, List.cons.injEq] at hu
    exact ⟨cs, hu.2⟩

theorem pre_of_pre_append {a b c : List Char} (h : a ++ b <+: c) : a <+: c := by
  obtain ⟨u, hu⟩ := h
  exact ⟨b ++ u, by rw [← hu]; simp⟩

theorem head_space_of_suffix {t : List Char} {c : Char} {cs ws : List Char}
    (ht : t <:+ ws) (he : t = c :: cs) (hws : ∀ x ∈ ws, isPySpace x = true) :
    isPySpace c = true :=
  hws c (List.IsSuffix.subset ht (by rw [he]; simp))

/-- No occurrence of the literal `implementation` starts strictly inside
the text of a pattern-1 match, whatever follows it. -/
theorem oa1 {ws : List Char} {q1 : Char} {v : List Char} {q2 : Char} {z w : List Char}
    (hws : ∀ c ∈ ws, isPySpace c = true) (hq1 : isQuoteChar q1 = true)
    (hq2 : isQuoteChar q2 = true) (hvc : ∀ c ∈ v, isVerChar c = true)
    (hz : z <:+ inst1 ws q1 v q2) (hne : z ≠ [])
    (hfull : z ≠ inst1 ws q1 v q2)
    (hpre : implChars <+: z ++ w) : False := by
  rw [show inst1 ws q1 v q2 = implChars ++ (ws ++ (q1 :: (coordChars ++ (v ++ [q2]))))
    from by simp [inst1]] at hz hfull
  rcases suffix_append_cases' hz with hz | ⟨t, ht, htne, rfl⟩
  · rcases suffix_append_cases' hz with hz | ⟨t, ht, htne, rfl⟩
    · rcases suffix_cons_cases hz with hz | rfl
      · rcases suffix_append_cases' hz with hz | ⟨t, ht, htne, rfl⟩
        · rcases suffix_append_cases' hz with hz | ⟨t, ht, htne, rfl⟩
          · rcases suffix_cons_cases hz with hz | rfl
            · rw [List.suffix_nil.mp hz] at hne
              exact hne rfl
            · exact no_pre_of_head_ne (Ne.symm (quoteChar_facts hq2).1) hpre
          · obtain ⟨c, cs, rfl⟩ : ∃ c cs, t = c :: cs := by
              cases t with
              | nil => exact absurd rfl htne
              | cons c cs => exact ⟨c, cs, rfl⟩
            have hc := hvc c (List.IsSuffix.subset ht (by simp))
            exact no_pre_of_head_ne (Ne.symm (verChar_facts hc).1) hpre
        · have htm := (List.mem_tails t coordChars).mpr ht
          fin_cases htm <;> first
            | exact absurd rfl htne
            | exact no_pre_of_head_ne (by decide) hpre
            | exact no_pre_two (by decide) hpre
      · exact no_pre_of_head_ne (Ne.symm (quoteChar_facts hq1).1) hpre
    · obtain ⟨c, cs, rfl⟩ : ∃ c cs, t = c :: cs := by
        cases t with
        | nil => exact absurd rfl htne
        | cons c cs => exact ⟨c, cs, rfl⟩
      have hc := head_space_of_suffix ht rfl hws
      exact no_pre_of_head_ne (Ne.symm (pySpace_facts hc).1) hpre
  · have htm := (List.mem_tails t implChars).mpr ht
    fin_cases htm <;> first
      | exact absurd rfl htne
      | exact absurd rfl hfull
      | exact no_pre_of_head_ne (by decide) hpre
      | exact no_pre_two (by decide) hpre

/-- No occurrence of the literal `implementation` starts strictly inside
the text of a pattern-2 match, whatever follows it. -/
theorem oa2 {ws : List Char} {q1 : Char} {v : List Char} {q2 : Char} {z w : List Char}
    (hws : ∀ c ∈ ws, isPySpace c = true) (hq1 : isQuoteChar q1 = true)
    (hq2 : isQuoteChar q2 = true) (hvc : ∀ c ∈ v, isVerChar c = true)
    (hz : z <:+ inst2 ws q1 v q2) (hne : z ≠ [])
    (hfull : z ≠ inst2 ws q1 v q2)
    (hpre : implChars <+: z ++ w) : False := by
  rw [show inst2 ws q1 v q2
      = implChars ++ ('(' :: (ws ++ (q1 :: (coordChars ++ (v ++ [q2, ')'])))))
    from by simp [inst2]] at hz hfull
  rcases suffix_append_cases' hz with hz | ⟨t, ht, htne, rfl⟩
  · rcases suffix_cons_cases hz with hz | rfl
    · rcases suffix_append_cases' hz with hz | ⟨t, ht, htne, rfl⟩
      · rcases suffix_cons_cases hz with hz | rfl
        · rcases suffix_append_cases' hz with hz | ⟨t, ht, htne, rfl⟩
          · rcases suffix_append_cases' hz with hz | ⟨t, ht, htne, rfl⟩
            · rcases suffix_cons_cases hz with hz | rfl
              · rcases suffix_cons_cases hz with hz | rfl
                · rw [List.suffix_nil.mp hz] at hne
                  exact hne rfl
                · exact no_pre_of_head_ne (by decide) hpre
              · exact no_pre_of_head_ne (Ne.symm (quoteChar_facts hq2).1) hpre
            · obtain ⟨c, cs, rfl⟩ : ∃ c cs, t = c :: cs := by
                cases t with
                | nil => exact absurd rfl htne
                | cons c cs => exact ⟨c, cs, rfl⟩
              have hc := hvc c (List.IsSuffix.subset ht (by simp))
              exact no_pre_of_head_ne (Ne.symm (verChar_facts hc).1) hpre
          · have htm := (List.mem_tails t coordChars).mpr ht
            fin_cases htm <;> first
              | exact absurd rfl htne
              | exact no_pre_of_head_ne (by decide) hpre
              | exact no_pre_two (by decide) hpre
        · exact no_pre_of_head_ne (Ne.symm (quoteChar_facts hq1).1) hpre
      · obtain ⟨c, cs, rfl⟩ : ∃ c cs, t = c :: cs := by
          cases t with
          | nil => exact absurd rfl htne
          | cons c cs => exact ⟨c, cs, rfl⟩
        have hc := head_space_of_suffix ht rfl hws
        exact no_pre_of_head_ne (Ne.symm (pySpace_facts hc).1) hpre
    · exact no_pre_of_head_ne (by decide) hpre
  · have htm := (List.mem_tails t implChars).mpr ht
    fin_cases htm <;> first
      | exact absurd rfl htne
      | exact absurd rfl hfull
      | exact no_pre_of_head_ne (by decide) hpre
      | exact no_pre_two (by decide) hpre

/-- No occurrence of the literal `implementation` starts anywhere inside
the text of a pattern-3 match, whatever follows it. -/
theorem oa3 {ws1 ws2 v z w : List Char}
    (hws1 : ∀ c ∈ ws1, isPySpace c = true) (hws2 : ∀ c ∈ ws2, isPySpace c = true)
    (hvc : ∀ c ∈ v, isVerChar c = true)
    (hz : z <:+ inst3 ws1 ws2 v) (hne : z ≠ [])
    (hpre : implChars <+: z ++ w) : False := by
  rw [show inst3 ws1 ws2 v
      = shapeChars ++ (ws1 ++ ('=' :: (ws2 ++ ('"' :: (v ++ ['"'])))))
    from by simp [inst3]] at hz
  rcases suffix_append_cases' hz with hz | ⟨t, ht, htne, rfl⟩
  · rcases suffix_append_cases' hz with hz | ⟨t, ht, htne, rfl⟩
    · rcases suffix_cons_cases hz with hz | rfl
      · rcases suffix_append_cases' hz with hz | ⟨t, ht, htne, rfl⟩
        · rcases suffix_cons_cases hz with hz | rfl
          · rcases suffix_append_cases' hz with hz | ⟨t, ht, htne, rfl⟩
            · rcases suffix_cons_cases hz with hz | rfl
              · rw [List.suffix_nil.mp hz] at hne
                exact hne rfl
              · exact no_pre_of_head_ne (by decide) hpre
            · obtain ⟨c, cs, rfl⟩ : ∃ c cs, t = c :: cs := by
                cases t with
                | nil => exact absurd rfl htne
                | cons c cs => exact ⟨c, cs, rfl⟩
              have hc := hvc c (List.IsSuffix.subset ht (by simp))
              exact no_pre_of_head_ne (Ne.symm (verChar_facts hc).1) hpre
          · exact no_pre_of_head_ne (by decide) hpre
        · obtain ⟨c, cs, rfl⟩ : ∃ c cs, t = c :: cs := by
            cases t with
            | nil => exact absurd rfl htne
            | cons c cs => exact ⟨c, cs, rfl⟩
          have hc := head_space_of_suffix ht rfl hws2
          exact no_pre_of_head_ne (Ne.symm (pySpace_facts hc).1) hpre
      · exact no_pre_of_head_ne (by decide) hpre
    · obtain ⟨c, cs, rfl⟩ : ∃ c cs, t = c :: cs := by
        cases t with
        | nil => exact absurd rfl htne
        | cons c cs => exact ⟨c, cs, rfl⟩
      have hc := head_space_of_suffix ht rfl hws1
      exact no_pre_of_head_ne (Ne.symm (pySpace_facts hc).1) hpre
  · have htm := (List.mem_tails t shapeChars).mpr ht
    fin_cases htm <;> first
      | exact absurd rfl htne
      | exact no_pre_of_head_ne (by decide) hpre
      | exact no_pre_two (by decide) hpre

theorem shape_eq_not_colon {ws1 Y w : List Char}
    (hws1 : ∀ c ∈ ws1, isPySpace c = true)
    (hpre : shapeChars ++ ws1 ++ ['='] <+: (shapeChars ++ (':' :: Y)) ++ w) : False := by
  obtain ⟨u, hu⟩ := hpre
  simp only [List.append_assoc, List.cons_append, List.singleton_append] at hu
  have h2 := List.append_cancel_left hu
  cases ws1 with
  | nil => simp at h2
  | cons c cs =>
    simp only [List.cons_append, List.cons.injEq] at h2
    have hc := hws1 c (by simp)
    exact absurd h2.1 (pySpace_facts hc).2.2.2.2.2.2.1

/-- No occurrence of `shapeindicators` followed by optional whitespace and
`=` (the head of a pattern-3 match) starts inside the text of a pattern-1
match, whatever follows it. -/
theorem ob1 {ws : List Char} {q1 : Char} {v : List Char} {q2 : Char} {ws1 z w : List Char}
    (hws : ∀ c ∈ ws, isPySpace c = true) (hq1 : isQuoteChar q1 = true)
    (hq2 : isQuoteChar q2 = true) (hvc : ∀ c ∈ v, isVerChar c = true)
    (hws1 : ∀ c ∈ ws1, isPySpace c = true)
    (hz : z <:+ inst1 ws q1 v q2) (hne : z ≠ [])
    (hpre : shapeChars ++ ws1 ++ ['='] <+: z ++ w) : False := by
  rw [show inst1 ws q1 v q2 = implChars ++ (ws ++ (q1 :: (coordChars ++ (v ++ [q2]))))
    from by simp [inst1]] at hz
  rcases suffix_append_cases' hz with hz | ⟨t, ht, htne, rfl⟩
  · rcases suffix_append_cases' hz with hz | ⟨t, ht, htne, rfl⟩
    · rcases suffix_cons_cases hz with hz | rfl
      · rcases suffix_append_cases' hz with hz | ⟨t, ht, htne, rfl⟩
        · rcases suffix_append_cases' hz with hz | ⟨t, ht, htne, rfl⟩
          · rcases suffix_cons_cases hz with hz | rfl
            · rw [List.suffix_nil.mp hz] at hne
              exact hne rfl
            · exact no_pre_of_head_ne (Ne.symm (quoteChar_facts hq2).2.1) hpre
          · obtain ⟨c, cs, rfl⟩ : ∃ c cs, t = c :: cs := by
              cases t with
              | nil => exact absurd rfl htne
              | cons c cs => exact ⟨c, cs, rfl⟩
            have hc := hvc c (List.IsSuffix.subset ht (by simp))
            exact no_pre_of_head_ne (Ne.symm (verChar_facts hc).2.1) hpre
        · have htm := (List.mem_tails t coordChars).mpr ht
          fin_cases htm <;> first
            | exact absurd rfl htne
            | exact no_pre_of_head_ne (by decide) hpre
            | exact no_pre_two (by decide) hpre
            | exact shape_eq_not_colon hws1 hpre
      · exact no_pre_of_head_ne (Ne.symm (quoteChar_facts hq1).2.1) hpre
    · obtain ⟨c, cs, rfl⟩ : ∃ c cs, t = c :: cs := by
        cases t with
        | nil => exact absurd rfl htne
        | cons c cs => exact ⟨c, cs, rfl⟩
      have hc := head_space_of_suffix ht rfl hws
      exact no_pre_of_head_ne (Ne.symm (pySpace_facts hc).2.1) hpre
  · have htm := (List.mem_tails t implChars).mpr ht
    fin_cases htm <;> first
      | exact absurd rfl htne
      | exact no_pre_of_head_ne (by decide) hpre

/-- No occurrence of `shapeindicators` followed by optional whitespace and
`=` starts inside the text of a pattern-2 match, whatever follows it. -/
theorem ob2 {ws : List Char} {q1 : Char} {v : List Char} {q2 : Char} {ws1 z w : List Char}
    (hws : ∀ c ∈ ws, isPySpace c = true) (hq1 : isQuoteChar q1 = true)
    (hq2 : isQuoteChar q2 = true) (hvc : ∀ c ∈ v, isVerChar c = true)
    (hws1 : ∀ c ∈ ws1, isPySpace c = true)
    (hz : z <:+ inst2 ws q1 v q2) (hne : z ≠ [])
    (hpre : shapeChars ++ ws1 ++ ['='] <+: z ++ w) : False := by
  rw [show inst2 ws q1 v q2
      = implChars ++ ('(' :: (ws ++ (q1 :: (coordChars ++ (v ++ [q2, ')'])))))
    from by simp [inst2]] at hz
  rcases suffix_append_cases' hz with hz | ⟨t, ht, htne, rfl⟩
  · rcases suffix_cons_cases hz with hz | rfl
    · rcases suffix_append_cases' hz with hz | ⟨t, ht, htne, rfl⟩
      · rcases suffix_cons_cases hz with hz | rfl
        · rcases suffix_append_cases' hz with hz | ⟨t, ht, htne, rfl⟩
          · rcases suffix_append_cases' hz with hz | ⟨t, ht, htne, rfl⟩
            · rcases suffix_cons_cases hz with hz | rfl
              · rcases suffix_cons_cases hz with hz | rfl
                · rw [List.suffix_nil.mp hz] at hne
                  exact hne rfl
                · exact no_pre_of_head_ne (by decide) hpre
              · exact no_pre_of_head_ne (Ne.symm (quoteChar_facts hq2).2.1) hpre
            · obtain ⟨c, cs, rfl⟩ : ∃ c cs, t = c :: cs := by
                cases t with
                | nil => exact absurd rfl htne
                | cons c cs => exact ⟨c, cs, rfl⟩
              have hc := hvc c (List.IsSuffix.subset ht (by simp))
              exact no_pre_of_head_ne (Ne.symm (verChar_facts hc).2.1) hpre
          · have htm := (List.mem_tails t coordChars).mpr ht
            fin_cases htm <;> first
              | exact absurd rfl htne
              | exact no_pre_of_head_ne (by decide) hpre
              | exact no_pre_two (by decide) hpre
              | exact shape_eq_not_colon hws1 hpre
        · exact no_pre_of_head_ne (Ne.symm (quoteChar_facts hq1).2.1) hpre
      · obtain ⟨c, cs, rfl⟩ : ∃ c cs, t = c :: cs := by
          cases t with
          | nil => exact absurd rfl htne
          | cons c cs => exact ⟨c, cs, rfl⟩
        have hc := head_space_of_suffix ht rfl hws
        exact no_pre_of_head_ne (Ne.symm (pySpace_facts hc).2.1) hpre
    · exact no_pre_of_head_ne (by decide) hpre
  · have htm := (List.mem_tails t implChars).mpr ht
    fin_cases htm <;> first
      | exact absurd rfl htne
      | exact no_pre_of_head_ne (by decide) hpre

/-- No occurrence of the literal `shapeindicators` starts strictly inside
the text of a pattern-3 match, whatever follows it. -/
theorem oc3 {ws1 ws2 v z w : List Char}
    (hws1 : ∀ c ∈ ws1, isPySpace c = true) (hws2 : ∀ c ∈ ws2, isPySpace c = true)
    (hvc : ∀ c ∈ v, isVerChar c = true)
    (hz : z <:+ inst3 ws1 ws2 v) (hne : z ≠ [])
    (hfull : z ≠ inst3 ws1 ws2 v)
    (hpre : shapeChars <+: z ++ w) : False := by
  rw [show inst3 ws1 ws2 v
      = shapeChars ++ (ws1 ++ ('=' :: (ws2 ++ ('"' :: (v ++ ['"'])))))
    from by simp [inst3]] at hz hfull
  rcases suffix_append_cases' hz with hz | ⟨t, ht, htne, rfl⟩
  · rcases suffix_append_cases' hz with hz | ⟨t, ht, htne, rfl⟩
    · rcases suffix_cons_cases hz with hz | rfl
      · rcases suffix_append_cases' hz with hz | ⟨t, ht, htne, rfl⟩
        · rcases suffix_cons_cases hz with hz | rfl
          · rcases suffix_append_cases' hz with hz | ⟨t, ht, htne, rfl⟩
            · rcases suffix_cons_cases hz with hz | rfl
              · rw [List.suffix_nil.mp hz] at hne
                exact hne rfl
              · exact no_pre_of_head_ne (by decide) hpre
            · obtain ⟨c, cs, rfl⟩ : ∃ c cs, t = c :: cs := by
                cases t with
                | nil => exact absurd rfl htne
                | cons c cs => exact ⟨c, cs, rfl⟩
              have hc := hvc c (List.IsSuffix.subset ht (by simp))
              exact no_pre_of_head_ne (Ne.symm (verChar_facts hc).2.1) hpre
          · exact no_pre_of_head_ne (by decide) hpre
        · obtain ⟨c, cs, rfl⟩ : ∃ c cs, t = c :: cs := by
            cases t with
            | nil => exact absurd rfl htne
            | cons c cs => exact ⟨c, cs, rfl⟩
          have hc := head_space_of_suffix ht rfl hws2
          exact no_pre_of_head_ne (Ne.symm (pySpace_facts hc).2.1) hpre
      · exact no_pre_of_head_ne (by decide) hpre
    · obtain ⟨c, cs, rfl⟩ : ∃ c cs, t = c :: cs := by
        cases t with
        | nil => exact absurd rfl htne
        | cons c cs => exact ⟨c, cs, rfl⟩
      have hc := head_space_of_suffix ht rfl hws1
      exact no_pre_of_head_ne (Ne.symm (pySpace_facts hc).2.1) hpre
  · have htm := (List.mem_tails t shapeChars).mpr ht
    fin_cases htm <;> first
      | exact absurd rfl htne
      | exact absurd rfl hfull
      | exact no_pre_of_head_ne (by decide) hpre
      | exact no_pre_two (by decide) hpre
      | (cases ws1 with
          | nil => exact no_pre_two (by decide) hpre
          | cons c cs =>
            exact no_pre_two (Ne.symm (pySpace_facts (hws1 c (by simp))).2.2.1) hpre)

/- ------------------------------------------------------------------ -/
/- Idempotence machinery.                                             -/
/- ------------------------------------------------------------------ -/

theorem pre_trans {a b c : List Char} (h1 : a <+: b) (h2 : b <+: c) : a <+: c := by
  obtain ⟨u1, rfl⟩ := h1
  obtain ⟨u2, rfl⟩ := h2
  exact ⟨u1 ++ u2, by simp⟩

theorem firstdiff {m : Matcher}
    (hs : ∀ s g1 v g2 r, m s = some (g1, v, g2, r) → s = g1 ++ v ++ g2 ++ r ∧ g1 ≠ [])
    (V : List Char) :
    ∀ n l, l.length ≤ n →
      reSub m V l = l ∨
      ∃ pre g1 v0 g2 r, l = pre ++ g1 ++ v0 ++ g2 ++ r ∧
        m (g1 ++ v0 ++ g2 ++ r) = some (g1, v0, g2, r) ∧
        reSub m V l = pre ++ g1 ++ V ++ g2 ++ reSub m V r := by
  intro n
  induction n with
  | zero =>
    intro l hl
    have : l = [] := List.length_eq_zero.mp (Nat.le_zero.mp hl)
    subst this
    exact Or.inl rfl
  | succ k ih =>
    intro l hl
    cases l with
    | nil => exact Or.inl rfl
    | cons c cs =>
      cases e : m (c :: cs) with
      | some parts =>
        obtain ⟨g1, v0, g2, r⟩ := parts
        refine Or.inr ⟨[], g1, v0, g2, r, by simpa using (hs _ _ _ _ _ e).1, ?_, ?_⟩
        · rw [← (hs _ _ _ _ _ e).1]; exact e
        · rw [reSub_eq_some hs e]; simp
      | none =>
        rcases ih cs (by simpa using hl) with hfd | ⟨pre, g1, v0, g2, r, hcs, hrun, hout⟩
        · left
          rw [reSub_cons_none e, hfd]
        · right
          exact ⟨c :: pre, g1, v0, g2, r, by simp [hcs], hrun,
            by rw [reSub_cons_none e, hout]; simp⟩

theorem reSub_fix {m : Matcher}
    (hs : ∀ s g1 v g2 r, m s = some (g1, v, g2, r) → s = g1 ++ v ++ g2 ++ r ∧ g1 ≠ [])
    {V : List Char} :
    ∀ n l, l.length ≤ n → GoodM m V l → reSub m V l = l := by
  intro n
  induction n with
  | zero =>
    intro l hl _
    have : l = [] := List.length_eq_zero.mp (Nat.le_zero.mp hl)
    subst this; rfl
  | succ k ih =>
    intro l hl hgood
    cases l with
    | nil => rfl
    | cons c cs =>
      cases e : m (c :: cs) with
      | none =>
        rw [reSub_cons_none e]
        rw [ih cs (by simpa using hl) fun s hsfx => hgood s (hsfx.trans ⟨[c], rfl⟩)]
      | some parts =>
        obtain ⟨g1, v, g2, r⟩ := parts
        have hv : v = V := hgood (c :: cs) List.suffix_rfl g1 v g2 r e
        obtain ⟨hseq, _⟩ := hs _ _ _ _ _ e
        have hrsfx : r <:+ c :: cs := ⟨g1 ++ v ++ g2, hseq.symm⟩
        rw [reSub_eq_some hs e]
        rw [ih r (by have := match_rest_lt hs e; simp at this hl ⊢; omega)
          fun s hsfx => hgood s (hsfx.trans hrsfx)]
        rw [← hv]
        exact hseq.symm

theorem reSub_good {mi mo : Matcher}
    (hsi : ∀ s g1 v g2 r, mi s = some (g1, v, g2, r) → s = g1 ++ v ++ g2 ++ r ∧ g1 ≠ [])
    (hso : ∀ s g1 v g2 r, mo s = some (g1, v, g2, r) → s = g1 ++ v ++ g2 ++ r ∧ g1 ≠ [])
    {V : List Char}
    (hloc : ∀ g1 v g2 r r', mo (g1 ++ v ++ g2 ++ r) = some (g1, v, g2, r) →
      mo (g1 ++ v ++ g2 ++ r') = some (g1, v, g2, r'))
    (hps : ∀ g1p vp g2p rp, mi (g1p ++ vp ++ g2p ++ rp) = some (g1p, vp, g2p, rp) →
      ∀ t g1 v g2 r, mo (g1p ++ V ++ g2p ++ t) = some (g1, v, g2, r) → v = V)
    (hts : ∀ g1p vp g2p rp, mi (g1p ++ vp ++ g2p ++ rp) = some (g1p, vp, g2p, rp) →
      ∀ z t g1 v g2 r, z <:+ g1p ++ V ++ g2p → z ≠ [] → z ≠ g1p ++ V ++ g2p →
        mo (z ++ t) = some (g1, v, g2, r) → False)
    (hov : ∀ g1 v g2 r, mo (g1 ++ v ++ g2 ++ r) = some (g1, v, g2, r) →
      ∀ g1p vp g2p rp, mi (g1p ++ vp ++ g2p ++ rp) = some (g1p, vp, g2p, rp) →
      ∀ z, z <:+ g1 ++ v ++ g2 → z ≠ [] → z.length < (g1 ++ v ++ g2).length →
        g1p <+: z → False) :
    ∀ n l, l.length ≤ n →
      (∀ s, s <:+ l → ∀ g1 v g2 r, mo s = some (g1, v, g2, r) → mi s = none → v = V) →
      GoodM mo V (reSub mi V l) := by
  intro n
  induction n with
  | zero =>
    intro l hl _
    have : l = [] := List.length_eq_zero.mp (Nat.le_zero.mp hl)
    subst this
    intro s hsfx g1 v g2 r hrun
    rw [List.suffix_nil.mp hsfx] at hrun
    obtain ⟨heq, hg1⟩ := hso _ _ _ _ _ hrun
    cases g1 with
    | nil => exact absurd rfl hg1
    | cons a as => simp at heq
  | succ k ih =>
    intro l hl hg
    cases l with
    | nil =>
      intro s hsfx g1 v g2 r hrun
      rw [List.suffix_nil.mp hsfx] at hrun
      obtain ⟨heq, hg1⟩ := hso _ _ _ _ _ hrun
      cases g1 with
      | nil => exact absurd rfl hg1
      | cons a as => simp at heq
    | cons c cs =>
      cases e : mi (c :: cs) with
      | some parts =>
        obtain ⟨g1p, vp, g2p, rp⟩ := parts
        have hei : mi (g1p ++ vp ++ g2p ++ rp) = some (g1p, vp, g2p, rp) := by
          rw [← (hsi _ _ _ _ _ e).1]; exact e
        have hrp_sfx : rp <:+ c :: cs := ⟨g1p ++ vp ++ g2p, ((hsi _ _ _ _ _ e).1).symm⟩
        rw [reSub_eq_some hsi e]
        intro s hsfx g1 v g2 r hrun
        rcases suffix_append_cases' (A := g1p ++ V ++ g2p) hsfx with hsfx | ⟨z, hzsf, hzne, rfl⟩
        · exact ih rp (by have := match_rest_lt hsi e; simp at this hl ⊢; omega)
            (fun s' hs' g1' v' g2' r' h1 h2 => hg s' (hs'.trans hrp_sfx) g1' v' g2' r' h1 h2)
            s hsfx g1 v g2 r hrun
        · by_cases hzfull : z = g1p ++ V ++ g2p
          · subst hzfull
            exact hps _ _ _ _ hei _ g1 v g2 r hrun
          · exact absurd hrun fun hrun =>
              hts _ _ _ _ hei z _ g1 v g2 r hzsf hzne hzfull hrun
      | none =>
        rw [reSub_cons_none e]
        intro s hsfx g1 v g2 r hrun
        rcases suffix_cons_cases hsfx with hsfx | rfl
        · exact ih cs (by simpa using hl)
            (fun s' hs' g1' v' g2' r' h1 h2 => hg s' (hs'.trans ⟨[c], rfl⟩) g1' v' g2' r' h1 h2)
            s hsfx g1 v g2 r hrun
        · rcases firstdiff hsi V cs.length cs le_rfl with hfd |
            ⟨pre, g1p, vp, g2p, rp, hcs, hrunp, hout⟩
          · rw [hfd] at hrun
            exact hg (c :: cs) List.suffix_rfl g1 v g2 r hrun e
          · rw [hout] at hrun
            obtain ⟨hseq, hg1ne⟩ := hso _ _ _ _ _ hrun
            have hg1pne : g1p ≠ [] := (hsi _ _ _ _ _ hrunp).2
            have hsplit : c :: (pre ++ g1p ++ V ++ g2p ++ reSub mi V rp) =
                (c :: (pre ++ g1p)) ++ (V ++ g2p ++ reSub mi V rp) := by
              simp [List.append_assoc]
            by_cases hlen : (g1 ++ v ++ g2).length ≤ (c :: (pre ++ g1p)).length
            · -- the posited match is also a match of the unrewritten input
              have heq1 : (c :: (pre ++ g1p)) ++ (V ++ g2p ++ reSub mi V rp) =
                  (g1 ++ v ++ g2) ++ r := by
                rw [← hsplit, hseq]
              obtain ⟨E, hAE, _⟩ := append_overlap heq1 hlen
              have hinput : c :: cs = g1 ++ v ++ g2 ++ (E ++ (vp ++ g2p ++ rp)) := by
                rw [hcs]
                have : c :: (pre ++ g1p) = g1 ++ v ++ g2 ++ E := by
                  rw [hAE]
                calc c :: (pre ++ g1p ++ vp ++ g2p ++ rp)
                    = (c :: (pre ++ g1p)) ++ (vp ++ g2p ++ rp) := by
                      simp [List.append_assoc]
                  _ = (g1 ++ v ++ g2 ++ E) ++ (vp ++ g2p ++ rp) := by rw [this]
                  _ = g1 ++ v ++ g2 ++ (E ++ (vp ++ g2p ++ rp)) := by
                      simp [List.append_assoc]
              have hrun0 : mo (g1 ++ v ++ g2 ++ r) = some (g1, v, g2, r) := by
                rw [← hseq]; exact hrun
              have hrun1 : mo (c :: cs) = some (g1, v, g2, E ++ (vp ++ g2p ++ rp)) := by
                rw [hinput]
                exact hloc _ _ _ _ _ hrun0
              exact hg (c :: cs) List.suffix_rfl g1 v g2 _ hrun1 e
            · -- the posited match would swallow the first rewritten group
              push_neg at hlen
              have heq1 : (g1 ++ v ++ g2) ++ r =
                  (c :: (pre ++ g1p)) ++ (V ++ g2p ++ reSub mi V rp) := by
                rw [← hsplit, ← hseq]
              obtain ⟨E, hmE, _⟩ := append_overlap heq1 (le_of_lt hlen)
              have hEne : E ≠ [] := by
                intro hE
                rw [hE, List.append_nil] at hmE
                rw [hmE] at hlen
                exact lt_irrefl _ hlen
              have hzsf : g1p ++ E <:+ g1 ++ v ++ g2 := by
                refine ⟨c :: pre, ?_⟩
                rw [hmE]; simp [List.append_assoc]
              have hzlen : (g1p ++ E).length < (g1 ++ v ++ g2).length := by
                rw [hmE]; simp [List.length_append]; omega
              have hg1pre : g1p <+: g1p ++ E := ⟨E, rfl⟩
              have hrun0 : mo (g1 ++ v ++ g2 ++ r) = some (g1, v, g2, r) := by
                rw [← hseq]; exact hrun
              exact (hov _ _ _ _ hrun0 _ _ _ _ hrunp (g1p ++ E) hzsf
                (by simp [hg1pne]) hzlen hg1pre).elim

theorem M1run_shape_start {Y : List Char} : M1run (shapeChars ++ Y) = none := rfl

theorem M2run_shape_start {Y : List Char} : M2run (shapeChars ++ Y) = none := rfl

theorem M1run_impl_paren {Y : List Char} : M1run (implChars ++ ('(' :: Y)) = none := rfl

theorem local1 {g1 v g2 r r' : List Char}
    (h : M1run (g1 ++ v ++ g2 ++ r) = some (g1, v, g2, r)) :
    M1run (g1 ++ v ++ g2 ++ r') = some (g1, v, g2, r') := by
  obtain ⟨ws, q1, q2, h1, h2, h3, h4, h5, hg1, hg2, _⟩ := M1run_eq_some h
  subst hg1 hg2
  exact M1run_complete h1 h2 h3 h4 h5

theorem local2 {g1 v g2 r r' : List Char}
    (h : M2run (g1 ++ v ++ g2 ++ r) = some (g1, v, g2, r)) :
    M2run (g1 ++ v ++ g2 ++ r') = some (g1, v, g2, r') := by
  obtain ⟨ws, q1, q2, h1, h2, h3, h4, h5, hg1, hg2, _⟩ := M2run_eq_some h
  subst hg1 hg2
  exact M2run_complete h1 h2 h3 h4 h5

theorem local3 {g1 v g2 r r' : List Char}
    (h : M3run (g1 ++ v ++ g2 ++ r) = some (g1, v, g2, r)) :
    M3run (g1 ++ v ++ g2 ++ r') = some (g1, v, g2, r') := by
  obtain ⟨ws1, ws2, h1, h2, h3, h4, hg1, hg2, _⟩ := M3run_eq_some h
  subst hg1 hg2
  exact M3run_complete h1 h2 h3 h4

theorem run1_impl_pre {s g1 v g2 r : List Char} (h : M1run s = some (g1, v, g2, r)) :
    implChars <+: s := by
  obtain ⟨ws, q1, q2, _, _, _, _, _, _, _, hseq⟩ := M1run_eq_some h
  rw [hseq]
  exact ⟨ws ++ ([q1] ++ (coordChars ++ (v ++ ([q2] ++ r)))), by simp⟩

theorem run2_impl_pre {s g1 v g2 r : List Char} (h : M2run s = some (g1, v, g2, r)) :
    implChars <+: s := by
  obtain ⟨ws, q1, q2, _, _, _, _, _, _, _, hseq⟩ := M2run_eq_some h
  rw [hseq]
  exact ⟨'(' :: (ws ++ ([q1] ++ (coordChars ++ (v ++ ([q2, ')'] ++ r))))), by simp⟩

theorem run3_head_pre {s g1 v g2 r : List Char} (h : M3run s = some (g1, v, g2, r)) :
    ∃ ws1, (∀ c ∈ ws1, isPySpace c = true) ∧ shapeChars ++ ws1 ++ ['='] <+: s := by
  obtain ⟨ws1, ws2, h1, _, _, _, _, _, hseq⟩ := M3run_eq_some h
  refine ⟨ws1, h1, ?_⟩
  rw [hseq]
  exact ⟨ws2 ++ (['"'] ++ (v ++ (['"'] ++ r))), by simp⟩

theorem ps11 {V : List Char} (hV : V ≠ []) (hVc : ∀ c ∈ V, isVerChar c = true) :
    ∀ g1p vp g2p rp, M1run (g1p ++ vp ++ g2p ++ rp) = some (g1p, vp, g2p, rp) →
      ∀ t g1 v g2 r, M1run (g1p ++ V ++ g2p ++ t) = some (g1, v, g2, r) → v = V := by
  intro g1p vp g2p rp hp t g1 v g2 r h
  obtain ⟨ws, q1, q2, h1, h2, h3, _, _, hg1, hg2, _⟩ := M1run_eq_some hp
  subst hg1 hg2
  rw [M1run_complete h1 h2 h3 hV hVc] at h
  simp only [Option.some.injEq, Prod.mk.injEq] at h
  exact h.2.1.symm

theorem ps22 {V : List Char} (hV : V ≠ []) (hVc : ∀ c ∈ V, isVerChar c = true) :
    ∀ g1p vp g2p rp, M2run (g1p ++ vp ++ g2p ++ rp) = some (g1p, vp, g2p, rp) →
      ∀ t g1 v g2 r, M2run (g1p ++ V ++ g2p ++ t) = some (g1, v, g2, r) → v = V := by
  intro g1p vp g2p rp hp t g1 v g2 r h
  obtain ⟨ws, q1, q2, h1, h2, h3, _, _, hg1, hg2, _⟩ := M2run_eq_some hp
  subst hg1 hg2
  rw [M2run_complete h1 h2 h3 hV hVc] at h
  simp only [Option.some.injEq, Prod.mk.injEq] at h
  exact h.2.1.symm

theorem ps33 {V : List Char} (hV : V ≠ []) (hVc : ∀ c ∈ V, isVerChar c = true) :
    ∀ g1p vp g2p rp, M3run (g1p ++ vp ++ g2p ++ rp) = some (g1p, vp, g2p, rp) →
      ∀ t g1 v g2 r, M3run (g1p ++ V ++ g2p ++ t) = some (g1, v, g2, r) → v = V := by
  intro g1p vp g2p rp hp t g1 v g2 r h
  obtain ⟨ws1, ws2, h1, h2, _, _, hg1, hg2, _⟩ := M3run_eq_some hp
  subst hg1 hg2
  rw [M3run_complete h1 h2 hV hVc] at h
  simp only [Option.some.injEq, Prod.mk.injEq] at h
  exact h.2.1.symm

theorem ps21 {V : List Char} :
    ∀ g1p vp g2p rp, M2run (g1p ++ vp ++ g2p ++ rp) = some (g1p, vp, g2p, rp) →
      ∀ t g1 v g2 r, M1run (g1p ++ V ++ g2p ++ t) = some (g1, v, g2, r) → v = V := by
  intro g1p vp g2p rp hp t g1 v g2 r h
  obtain ⟨ws, q1, q2, _, _, _, _, _, hg1, hg2, _⟩ := M2run_eq_some hp
  subst hg1 hg2
  rw [show (implChars ++ ['('] ++ ws ++ [q1] ++ coordChars) ++ V ++ [q2, ')'] ++ t
      = implChars ++ ('(' :: (ws ++ ([q1] ++ (coordChars ++ (V ++ ([q2, ')'] ++ t))))))
    from by simp] at h
  rw [M1run_impl_paren] at h
  exact Option.noConfusion h

theorem ps31 {V : List Char} :
    ∀ g1p vp g2p rp, M3run (g1p ++ vp ++ g2p ++ rp) = some (g1p, vp, g2p, rp) →
      ∀ t g1 v g2 r, M1run (g1p ++ V ++ g2p ++ t) = some (g1, v, g2, r) → v = V := by
  intro g1p vp g2p rp hp t g1 v g2 r h
  obtain ⟨ws1, ws2, _, _, _, _, hg1, hg2, _⟩ := M3run_eq_some hp
  subst hg1 hg2
  rw [show (shapeChars ++ ws1 ++ ['='] ++ ws2 ++ ['"']) ++ V ++ ['"'] ++ t
      = shapeChars ++ (ws1 ++ (['='] ++ (ws2 ++ (['"'] ++ (V ++ (['"'] ++ t))))))
    from by simp] at h
  rw [M1run_shape_start] at h
  exact Option.noConfusion h

theorem ps32 {V : List Char} :
    ∀ g1p vp g2p rp, M3run (g1p ++ vp ++ g2p ++ rp) = some (g1p, vp, g2p, rp) →
      ∀ t g1 v g2 r, M2run (g1p ++ V ++ g2p ++ t) = some (g1, v, g2, r) → v = V := by
  intro g1p vp g2p rp hp t g1 v g2 r h
  obtain ⟨ws1, ws2, _, _, _, _, hg1, hg2, _⟩ := M3run_eq_some hp
  subst hg1 hg2
  rw [show (shapeChars ++ ws1 ++ ['='] ++ ws2 ++ ['"']) ++ V ++ ['"'] ++ t
      = shapeChars ++ (ws1 ++ (['='] ++ (ws2 ++ (['"'] ++ (V ++ (['"'] ++ t))))))
    from by simp] at h
  rw [M2run_shape_start] at h
  exact Option.noConfusion h

theorem ts11 {V : List Char} (hVc : ∀ c ∈ V, isVerChar c = true) :
    ∀ g1p vp g2p rp, M1run (g1p ++ vp ++ g2p ++ rp) = some (g1p, vp, g2p, rp) →
      ∀ z t g1 v g2 r, z <:+ g1p ++ V ++ g2p → z ≠ [] → z ≠ g1p ++ V ++ g2p →
        M1run (z ++ t) = some (g1, v, g2, r) → False := by
  intro g1p vp g2p rp hp z t g1 v g2 r hzsf hzne hzfull h
  obtain ⟨ws, q1, q2, h1, h2, h3, _, _, hg1, hg2, _⟩ := M1run_eq_some hp
  subst hg1 hg2
  exact oa1 h1 h2 h3 hVc hzsf hzne hzfull (run1_impl_pre h)

theorem ts21 {V : List Char} (hVc : ∀ c ∈ V, isVerChar c = true) :
    ∀ g1p vp g2p rp, M2run (g1p ++ vp ++ g2p ++ rp) = some (g1p, vp, g2p, rp) →
      ∀ z t g1 v g2 r, z <:+ g1p ++ V ++ g2p → z ≠ [] → z ≠ g1p ++ V ++ g2p →
        M1run (z ++ t) = some (g1, v, g2, r) → False := by
  intro g1p vp g2p rp hp z t g1 v g2 r hzsf hzne hzfull h
  obtain ⟨ws, q1, q2, h1, h2, h3, _, _, hg1, hg2, _⟩ := M2run_eq_some hp
  subst hg1 hg2
  exact oa2 h1 h2 h3 hVc hzsf hzne hzfull (run1_impl_pre h)

theorem ts31 {V : List Char} (hVc : ∀ c ∈ V, isVerChar c = true) :
    ∀ g1p vp g2p rp, M3run (g1p ++ vp ++ g2p ++ rp) = some (g1p, vp, g2p, rp) →
      ∀ z t g1 v g2 r, z <:+ g1p ++ V ++ g2p → z ≠ [] → z ≠ g1p ++ V ++ g2p →
        M1run (z ++ t) = some (g1, v, g2, r) → False := by
  intro g1p vp g2p rp hp z t g1 v g2 r hzsf hzne hzfull h
  obtain ⟨ws1, ws2, h1, h2, _, _, hg1, hg2, _⟩ := M3run_eq_some hp
  subst hg1 hg2
  exact oa3 h1 h2 hVc hzsf hzne (run1_impl_pre h)

theorem ts22 {V : List Char} (hVc : ∀ c ∈ V, isVerChar c = true) :
    ∀ g1p vp g2p rp, M2run (g1p ++ vp ++ g2p ++ rp) = some (g1p, vp, g2p, rp) →
      ∀ z t g1 v g2 r, z <:+ g1p ++ V ++ g2p → z ≠ [] → z ≠ g1p ++ V ++ g2p →
        M2run (z ++ t) = some (g1, v, g2, r) → False := by
  intro g1p vp g2p rp hp z t g1 v g2 r hzsf hzne hzfull h
  obtain ⟨ws, q1, q2, h1, h2, h3, _, _, hg1, hg2, _⟩ := M2run_eq_some hp
  subst hg1 hg2
  exact oa2 h1 h2 h3 hVc hzsf hzne hzfull (run2_impl_pre h)

theorem ts32 {V : List Char} (hVc : ∀ c ∈ V, isVerChar c = true) :
    ∀ g1p vp g2p rp, M3run (g1p ++ vp ++ g2p ++ rp) = some (g1p, vp, g2p, rp) →
      ∀ z t g1 v g2 r, z <:+ g1p ++ V ++ g2p → z ≠ [] → z ≠ g1p ++ V ++ g2p →
        M2run (z ++ t) = some (g1, v, g2, r) → False := by
  intro g1p vp g2p rp hp z t g1 v g2 r hzsf hzne hzfull h
  obtain ⟨ws1, ws2, h1, h2, _, _, hg1, hg2, _⟩ := M3run_eq_some hp
  subst hg1 hg2
  exact oa3 h1 h2 hVc hzsf hzne (run2_impl_pre h)

theorem ts33 {V : List Char} (hVc : ∀ c ∈ V, isVerChar c = true) :
    ∀ g1p vp g2p rp, M3run (g1p ++ vp ++ g2p ++ rp) = some (g1p, vp, g2p, rp) →
      ∀ z t g1 v g2 r, z <:+ g1p ++ V ++ g2p → z ≠ [] → z ≠ g1p ++ V ++ g2p →
        M3run (z ++ t) = some (g1, v, g2, r) → False := by
  intro g1p vp g2p rp hp z t g1 v g2 r hzsf hzne hzfull h
  obtain ⟨ws1, ws2, h1, h2, _, _, hg1, hg2, _⟩ := M3run_eq_some hp
  subst hg1 hg2
  obtain ⟨ws1', hws1', hpre⟩ := run3_head_pre h
  exact oc3 h1 h2 hVc hzsf hzne hzfull
    (pre_of_pre_append (pre_of_pre_append hpre))

theorem ov11 :
    ∀ g1 v g2 r, M1run (g1 ++ v ++ g2 ++ r) = some (g1, v, g2, r) →
      ∀ g1p vp g2p rp, M1run (g1p ++ vp ++ g2p ++ rp) = some (g1p, vp, g2p, rp) →
      ∀ z, z <:+ g1 ++ v ++ g2 → z ≠ [] → z.length < (g1 ++ v ++ g2).length →
        g1p <+: z → False := by
  intro g1 v g2 r ho g1p vp g2p rp hi z hzsf hzne hzlen hzpre
  obtain ⟨ws, q1, q2, h1, h2, h3, _, h5, hg1, hg2, _⟩ := M1run_eq_some ho
  subst hg1 hg2
  obtain ⟨wsP, q1P, q2P, _, _, _, _, _, hg1p, _, _⟩ := M1run_eq_some hi
  have himpl : implChars <+: z := by
    refine pre_trans ?_ hzpre
    rw [hg1p]
    exact ⟨wsP ++ ([q1P] ++ coordChars), by simp⟩
  exact oa1 (w := []) h1 h2 h3 h5 hzsf hzne
    (fun heq => by rw [heq] at hzlen; exact lt_irrefl _ hzlen)
    (by simpa using himpl)

theorem ov21 :
    ∀ g1 v g2 r, M1run (g1 ++ v ++ g2 ++ r) = some (g1, v, g2, r) →
      ∀ g1p vp g2p rp, M2run (g1p ++ vp ++ g2p ++ rp) = some (g1p, vp, g2p, rp) →
      ∀ z, z <:+ g1 ++ v ++ g2 → z ≠ [] → z.length < (g1 ++ v ++ g2).length →
        g1p <+: z → False := by
  intro g1 v g2 r ho g1p vp g2p rp hi z hzsf hzne hzlen hzpre
  obtain ⟨ws, q1, q2, h1, h2, h3, _, h5, hg1, hg2, _⟩ := M1run_eq_some ho
  subst hg1 hg2
  obtain ⟨wsP, q1P, q2P, _, _, _, _, _, hg1p, _, _⟩ := M2run_eq_some hi
  have himpl : implChars <+: z := by
    refine pre_trans ?_ hzpre
    rw [hg1p]
    exact ⟨'(' :: (wsP ++ ([q1P] ++ coordChars)), by simp⟩
  exact oa1 (w := []) h1 h2 h3 h5 hzsf hzne
    (fun heq => by rw [heq] at hzlen; exact lt_irrefl _ hzlen)
    (by simpa using himpl)

theorem ov31 :
    ∀ g1 v g2 r, M1run (g1 ++ v ++ g2 ++ r) = some (g1, v, g2, r) →
      ∀ g1p vp g2p rp, M3run (g1p ++ vp ++ g2p ++ rp) = some (g1p, vp, g2p, rp) →
      ∀ z, z <:+ g1 ++ v ++ g2 → z ≠ [] → z.length < (g1 ++ v ++ g2).length →
        g1p <+: z → False := by
  intro g1 v g2 r ho g1p vp g2p rp hi z hzsf hzne hzlen hzpre
  obtain ⟨ws, q1, q2, h1, h2, h3, _, h5, hg1, hg2, _⟩ := M1run_eq_some ho
  subst hg1 hg2
  obtain ⟨ws1P, ws2P, hws1P, _, _, _, hg1p, _, _⟩ := M3run_eq_some hi
  have hshape : shapeChars ++ ws1P ++ ['='] <+: z := by
    refine pre_trans ?_ hzpre
    rw [hg1p]
    exact ⟨ws2P ++ ['"'], by simp⟩
  exact ob1 (w := []) h1 h2 h3 h5 hws1P hzsf hzne (by simpa using hshape)

theorem ov22 :
    ∀ g1 v g2 r, M2run (g1 ++ v ++ g2 ++ r) = some (g1, v, g2, r) →
      ∀ g1p vp g2p rp, M2run (g1p ++ vp ++ g2p ++ rp) = some (g1p, vp, g2p, rp) →
      ∀ z, z <:+ g1 ++ v ++ g2 → z ≠ [] → z.length < (g1 ++ v ++ g2).length →
        g1p <+: z → False := by
  intro g1 v g2 r ho g1p vp g2p rp hi z hzsf hzne hzlen hzpre
  obtain ⟨ws, q1, q2, h1, h2, h3, _, h5, hg1, hg2, _⟩ := M2run_eq_some ho
  subst hg1 hg2
  obtain ⟨wsP, q1P, q2P, _, _, _, _, _, hg1p, _, _⟩ := M2run_eq_some hi
  have himpl : implChars <+: z := by
    refine pre_trans ?_ hzpre
    rw [hg1p]
    exact ⟨'(' :: (wsP ++ ([q1P] ++ coordChars)), by simp⟩
  exact oa2 (w := []) h1 h2 h3 h5 hzsf hzne
    (fun heq => by rw [heq] at hzlen; exact lt_irrefl _ hzlen)
    (by simpa using himpl)

theorem ov32 :
    ∀ g1 v g2 r, M2run (g1 ++ v ++ g2 ++ r) = some (g1, v, g2, r) →
      ∀ g1p vp g2p rp, M3run (g1p ++ vp ++ g2p ++ rp) = some (g1p, vp, g2p, rp) →
      ∀ z, z <:+ g1 ++ v ++ g2 → z ≠ [] → z.length < (g1 ++ v ++ g2).length →
        g1p <+: z → False := by
  intro g1 v g2 r ho g1p vp g2p rp hi z hzsf hzne hzlen hzpre
  obtain ⟨ws, q1, q2, h1, h2, h3, _, h5, hg1, hg2, _⟩ := M2run_eq_some ho
  subst hg1 hg2
  obtain ⟨ws1P, ws2P, hws1P, _, _, _, hg1p, _, _⟩ := M3run_eq_some hi
  have hshape : shapeChars ++ ws1P ++ ['='] <+: z := by
    refine pre_trans ?_ hzpre
    rw [hg1p]
    exact ⟨ws2P ++ ['"'], by simp⟩
  exact ob2 (w := []) h1 h2 h3 h5 hws1P hzsf hzne (by simpa using hshape)

theorem ov33 :
    ∀ g1 v g2 r, M3run (g1 ++ v ++ g2 ++ r) = some (g1, v, g2, r) →
      ∀ g1p vp g2p rp, M3run (g1p ++ vp ++ g2p ++ rp) = some (g1p, vp, g2p, rp) →
      ∀ z, z <:+ g1 ++ v ++ g2 → z ≠ [] → z.length < (g1 ++ v ++ g2).length →
        g1p <+: z → False := by
  intro g1 v g2 r ho g1p vp g2p rp hi z hzsf hzne hzlen hzpre
  obtain ⟨ws1, ws2, h1, h2, _, h4, hg1, hg2, _⟩ := M3run_eq_some ho
  subst hg1 hg2
  obtain ⟨ws1P, ws2P, _, _, _, _, hg1p, _, _⟩ := M3run_eq_some hi
  have hshape : shapeChars <+: z := by
    refine pre_trans ?_ hzpre
    rw [hg1p]
    exact ⟨ws1P ++ (['='] ++ (ws2P ++ ['"'])), by simp⟩
  exact oc3 (w := []) h1 h2 h4 hzsf hzne
    (fun heq => by rw [heq] at hzlen; exact lt_irrefl _ hzlen)
    (by simpa using hshape)

theorem substitute_good {V : List Char} (hV : V ≠ [])
    (hVc : ∀ ch ∈ V, isVerChar ch = true) (c : List Char) :
    GoodM M1run V (reSub M3run V (reSub M2run V (reSub M1run V c))) ∧
    GoodM M2run V (reSub M3run V (reSub M2run V (reSub M1run V c))) ∧
    GoodM M3run V (reSub M3run V (reSub M2run V (reSub M1run V c))) := by
  have s1 : ∀ s g1 v g2 r, M1run s = some (g1, v, g2, r) →
      s = g1 ++ v ++ g2 ++ r ∧ g1 ≠ [] := fun _ _ _ _ _ h => M1run_sound h
  have s2 : ∀ s g1 v g2 r, M2run s = some (g1, v, g2, r) →
      s = g1 ++ v ++ g2 ++ r ∧ g1 ≠ [] := fun _ _ _ _ _ h => M2run_sound h
  have s3 : ∀ s g1 v g2 r, M3run s = some (g1, v, g2, r) →
      s = g1 ++ v ++ g2 ++ r ∧ g1 ≠ [] := fun _ _ _ _ _ h => M3run_sound h
  have hG1a : GoodM M1run V (reSub M1run V c) :=
    reSub_good s1 s1 (fun _ _ _ _ _ h => local1 h) (ps11 hV hVc) (ts11 hVc) ov11
      c.length c le_rfl
      (fun s _ g1 v g2 r h1 h2 => by rw [h2] at h1; exact Option.noConfusion h1)
  have hG1b : GoodM M1run V (reSub M2run V (reSub M1run V c)) :=
    reSub_good s2 s1 (fun _ _ _ _ _ h => local1 h) ps21 (ts21 hVc) ov21
      (reSub M1run V c).length _ le_rfl
      (fun s hs g1 v g2 r h1 _ => hG1a s hs g1 v g2 r h1)
  have hG1c : GoodM M1run V (reSub M3run V (reSub M2run V (reSub M1run V c))) :=
    reSub_good s3 s1 (fun _ _ _ _ _ h => local1 h) ps31 (ts31 hVc) ov31
      (reSub M2run V (reSub M1run V c)).length _ le_rfl
      (fun s hs g1 v g2 r h1 _ => hG1b s hs g1 v g2 r h1)
  have hG2a : GoodM M2run V (reSub M2run V (reSub M1run V c)) :=
    reSub_good s2 s2 (fun _ _ _ _ _ h => local2 h) (ps22 hV hVc) (ts22 hVc) ov22
      (reSub M1run V c).length _ le_rfl
      (fun s _ g1 v g2 r h1 h2 => by rw [h2] at h1; exact Option.noConfusion h1)
  have hG2b : GoodM M2run V (reSub M3run V (reSub M2run V (reSub M1run V c))) :=
    reSub_good s3 s2 (fun _ _ _ _ _ h => local2 h) ps32 (ts32 hVc) ov32
      (reSub M2run V (reSub M1run V c)).length _ le_rfl
      (fun s hs g1 v g2 r h1 _ => hG2a s hs g1 v g2 r h1)
  have hG3 : GoodM M3run V (reSub M3run V (reSub M2run V (reSub M1run V c))) :=
    reSub_good s3 s3 (fun _ _ _ _ _ h => local3 h) (ps33 hV hVc) (ts33 hVc) ov33
      (reSub M2run V (reSub M1run V c)).length _ le_rfl
      (fun s _ g1 v g2 r h1 h2 => by rw [h2] at h1; exact Option.noConfusion h1)
  exact ⟨hG1c, hG2b, hG3⟩

/-- C3 amended: the substitutor is idempotent for every document whenever
the version string is a nonempty string of decimal digits and dots (the
shape the script's own documentation expects the release tag to have).
The unrestricted claim is refuted by `c3_counterexample`. -/
theorem c3_idempotent_amended (V c : List Char) (hV : V ≠ [])
    (hVc : ∀ ch ∈ V, isVerChar ch = true) :
    substituteContent V (substituteContent V c) = substituteContent V c := by
  have s1 : ∀ s g1 v g2 r, M1run s = some (g1, v, g2, r) →
      s = g1 ++ v ++ g2 ++ r ∧ g1 ≠ [] := fun _ _ _ _ _ h => M1run_sound h
  have s2 : ∀ s g1 v g2 r, M2run s = some (g1, v, g2, r) →
      s = g1 ++ v ++ g2 ++ r ∧ g1 ≠ [] := fun _ _ _ _ _ h => M2run_sound h
  have s3 : ∀ s g1 v g2 r, M3run s = some (g1, v, g2, r) →
      s = g1 ++ v ++ g2 ++ r ∧ g1 ≠ [] := fun _ _ _ _ _ h => M3run_sound h
  obtain ⟨hG1, hG2, hG3⟩ := substitute_good hV hVc c
  show reSub M3run V (reSub M2run V (reSub M1run V (substituteContent V c))) =
    substituteContent V c
  rw [show reSub M1run V (substituteContent V c) = substituteContent V c from
    reSub_fix s1 (substituteContent V c).length _ le_rfl hG1]
  rw [show reSub M2run V (substituteContent V c) = substituteContent V c from
    reSub_fix s2 (substituteContent V c).length _ le_rfl hG2]
  exact reSub_fix s3 (substituteContent V c).length _ le_rfl hG3

theorem c3_idempotent_amended_witness :
    (['2', '.', '0'] : List Char) ≠ [] ∧
    (∀ ch ∈ (['2', '.', '0'] : List Char), isVerChar ch = true) ∧
    substituteContent ['2', '.', '0']
        (substituteContent ['2', '.', '0']
          ("implementation \"io.github.dp-hridayan:shapeindicators:1.0\"".toList)) =
      substituteContent ['2', '.', '0']
        ("implementation \"io.github.dp-hridayan:shapeindicators:1.0\"".toList) :=
  ⟨by decide, by decide,
    c3_idempotent_amended ['2', '.', '0']
      ("implementation \"io.github.dp-hridayan:shapeindicators:1.0\"".toList)
      (by decide) (by decide)⟩

/- ------------------------------------------------------------------ -/
/- A line whose version segment is malformed is left untouched.       -/
/- ------------------------------------------------------------------ -/

theorem M3run_impl_start {Y : List Char} : M3run (implChars ++ Y) = none := rfl

theorem M3run_colon {Y : List Char} : M3run (shapeChars ++ (':' :: Y)) = none := rfl

theorem M1run_none_of_head {c : Char} {rest : List Char} (h : c ≠ 'i') :
    M1run (c :: rest) = none := by
  cases e : M1run (c :: rest) with
  | none => rfl
  | some parts =>
    obtain ⟨g1, v, g2, r⟩ := parts
    exact absurd ((List.cons_prefix_cons.mp (run1_impl_pre e)).1) fun he => h he.symm

theorem M2run_none_of_head {c : Char} {rest : List Char} (h : c ≠ 'i') :
    M2run (c :: rest) = none := by
  cases e : M2run (c :: rest) with
  | none => rfl
  | some parts =>
    obtain ⟨g1, v, g2, r⟩ := parts
    exact absurd ((List.cons_prefix_cons.mp (run2_impl_pre e)).1) fun he => h he.symm

theorem M3run_none_of_head {c : Char} {rest : List Char} (h : c ≠ 's') :
    M3run (c :: rest) = none := by
  cases e : M3run (c :: rest) with
  | none => rfl
  | some parts =>
    obtain ⟨g1, v, g2, r⟩ := parts
    obtain ⟨ws1, _, hpre⟩ := run3_head_pre e
    have := pre_of_pre_append (pre_of_pre_append hpre)
    exact absurd ((List.cons_prefix_cons.mp this).1) fun he => h he.symm

theorem M1run_none_of_two {c1 c2 : Char} {rest : List Char} (h : c2 ≠ 'm') :
    M1run (c1 :: c2 :: rest) = none := by
  cases e : M1run (c1 :: c2 :: rest) with
  | none => rfl
  | some parts =>
    obtain ⟨g1, v, g2, r⟩ := parts
    exact no_pre_two (fun he => h he.symm) (run1_impl_pre e) |>.elim

theorem M2run_none_of_two {c1 c2 : Char} {rest : List Char} (h : c2 ≠ 'm') :
    M2run (c1 :: c2 :: rest) = none := by
  cases e : M2run (c1 :: c2 :: rest) with
  | none => rfl
  | some parts =>
    obtain ⟨g1, v, g2, r⟩ := parts
    exact no_pre_two (fun he => h he.symm) (run2_impl_pre e) |>.elim

theorem M3run_none_of_two {c1 c2 : Char} {rest : List Char} (h : c2 ≠ 'h') :
    M3run (c1 :: c2 :: rest) = none := by
  cases e : M3run (c1 :: c2 :: rest) with
  | none => rfl
  | some parts =>
    obtain ⟨g1, v, g2, r⟩ := parts
    obtain ⟨ws1, _, hpre⟩ := run3_head_pre e
    have := pre_of_pre_append (pre_of_pre_append hpre)
    exact no_pre_two (fun he => h he.symm) this |>.elim

theorem stripLit_append_left (a : List Char) :
    ∀ b s, stripLit (a ++ b) (a ++ s) = stripLit b s := by
  induction a with
  | nil => intro b s; rfl
  | cons c cs ih => intro b s; simp [stripLit, ih]

theorem takeWhile_append_of_bad {p : Char → Bool} {l : List Char} (m : List Char)
    (h : ∃ b ∈ l, p b = false) :
    (l ++ m).takeWhile p = l.takeWhile p ∧
      (l ++ m).dropWhile p = l.dropWhile p ++ m := by
  induction l with
  | nil => simp at h
  | cons c cs ih =>
    by_cases hc : p c
    · have hcs : ∃ b ∈ cs, p b = false := by
        obtain ⟨b, hb1, hb2⟩ := h
        rcases List.mem_cons.mp hb1 with rfl | hb1
        · rw [hc] at hb2; exact absurd hb2 (by simp)
        · exact ⟨b, hb1, hb2⟩
      obtain ⟨h1, h2⟩ := ih hcs
      constructor
      · simp only [List.cons_append, List.takeWhile_cons_of_pos hc, h1]
      · simp only [List.cons_append, List.dropWhile_cons_of_pos hc, h2]
    · constructor
      · simp [List.takeWhile_cons_of_neg hc]
      · simp [List.dropWhile_cons_of_neg hc]

theorem dropWhile_ne_nil_of_bad {p : Char → Bool} {l : List Char}
    (h : ∃ b ∈ l, p b = false) : l.dropWhile p ≠ [] := by
  intro hnil
  obtain ⟨b, hb1, hb2⟩ := h
  have : l.takeWhile p = l := by
    have := List.takeWhile_append_dropWhile p l
    rw [hnil] at this
    simpa using this
  rw [← this] at hb1
  have hpb := List.mem_takeWhile_imp hb1
  rw [hb2] at hpb
  exact Bool.noConfusion hpb

theorem M1run_doc_none {ws v0 Y : List Char} {q : Char}
    (hws : ∀ c ∈ ws, isPySpace c = true) (hq : isQuoteChar q = true)
    (hbad : ∃ b ∈ v0, isVerChar b = false)
    (hnq : ∀ ch ∈ v0, isQuoteChar ch = false) :
    M1run (implChars ++ (ws ++ (q :: (coordChars ++ (v0 ++ Y))))) = none := by
  unfold M1run
  rw [stripLit_eq_some.mpr rfl]
  simp only [spaceStage1]
  have hqs : isPySpace q = false := (quoteChar_facts hq).2.2.2.2.2.2.1
  obtain ⟨ht1, hd1⟩ := takeWhile_all_cons hws hqs (t := coordChars ++ (v0 ++ Y))
  rw [ht1, hd1]
  simp only [quoteStage1, hq, if_true]
  rw [stripLit_eq_some.mpr rfl]
  simp only [coordStage1]
  obtain ⟨ht2, hd2⟩ := takeWhile_append_of_bad Y hbad
  rw [ht2, hd2]
  cases e : v0.dropWhile isVerChar with
  | nil => exact absurd e (dropWhile_ne_nil_of_bad hbad)
  | cons b rest =>
    have hbq : isQuoteChar b = false := hnq b
      (List.IsSuffix.subset (List.dropWhile_suffix isVerChar) (by rw [e]; simp))
    by_cases he : v0.takeWhile isVerChar = []
    · simp [verStage1, he]
    · simp [verStage1, he, hbq]

theorem M2run_impl_noparen {ws Y : List Char} {q : Char}
    (hws : ∀ c ∈ ws, isPySpace c = true) (hq : isQuoteChar q = true) :
    M2run (implChars ++ (ws ++ (q :: Y))) = none := by
  unfold M2run
  rw [stripLit_append_left implChars ['('] (ws ++ (q :: Y))]
  cases ws with
  | nil =>
    have hqp : q ≠ '(' := (quoteChar_facts hq).2.2.1
    simp [stripLit, hqp, spaceStage2]
  | cons c cs =>
    have hcp : c ≠ '(' := (pySpace_facts (hws c (by simp))).2.2.2.1
    simp [stripLit, hcp, spaceStage2]

/- ------------------------------------------------------------------ -/
/- Both quote styles are recognized and preserved.                    -/
/- ------------------------------------------------------------------ -/

theorem reSub_skip {m : Matcher} {V A X : List Char}
    (h : ∀ z t, z <:+ A → z ≠ [] → m (z ++ t) = none) :
    reSub m V (A ++ X) = A ++ reSub m V X := by
  induction A with
  | nil => rfl
  | cons c cs ih =>
    rw [show (c :: cs) ++ X = c :: (cs ++ X) from rfl]
    have e : m (c :: (cs ++ X)) = none := h (c :: cs) X List.suffix_rfl (by simp)
    rw [reSub_cons_none e]
    rw [ih fun z t hz hzne => h z t (hz.trans ⟨[c], rfl⟩) hzne]
    rfl

/-- C7: pattern 1 recognizes the dependency line with the coordinate
wrapped in single quotes as well as in double quotes, and the quote
characters are re-emitted exactly as written; only the version segment
between them changes.  The line may be preceded by any text containing no
`i` and no `s` (so no pattern can start there) and followed by anything;
the rest of the document is processed as usual. -/
theorem c7_quote_styles (V pre ws v0 post : List Char) (q : Char)
    (hpre : ∀ c ∈ pre, c ≠ 'i' ∧ c ≠ 's')
    (hws : ∀ c ∈ ws, isPySpace c = true) (hq : isQuoteChar q = true)
    (hv0 : v0 ≠ []) (hv0c : ∀ c ∈ v0, isVerChar c = true)
    (hV : V ≠ []) (hVc : ∀ c ∈ V, isVerChar c = true) :
    substituteContent V
        (pre ++ (implChars ++ ws ++ [q] ++ coordChars ++ v0 ++ [q]) ++ post) =
      pre ++ (implChars ++ ws ++ [q] ++ coordChars ++ V ++ [q]) ++
        substituteContent V post := by
  have s1 : ∀ s g1 v g2 r, M1run s = some (g1, v, g2, r) →
      s = g1 ++ v ++ g2 ++ r ∧ g1 ≠ [] := fun _ _ _ _ _ h => M1run_sound h
  have hpre1 : ∀ z t, z <:+ pre → z ≠ [] → M1run (z ++ t) = none := by
    intro z t hz hzne
    obtain ⟨c, cs, rfl⟩ : ∃ c cs, z = c :: cs := by
      cases z with
      | nil => exact absurd rfl hzne
      | cons c cs => exact ⟨c, cs, rfl⟩
    exact M1run_none_of_head (hpre c (List.IsSuffix.subset hz (by simp))).1
  have hpre2 : ∀ z t, z <:+ pre → z ≠ [] → M2run (z ++ t) = none := by
    intro z t hz hzne
    obtain ⟨c, cs, rfl⟩ : ∃ c cs, z = c :: cs := by
      cases z with
      | nil => exact absurd rfl hzne
      | cons c cs => exact ⟨c, cs, rfl⟩
    exact M2run_none_of_head (hpre c (List.IsSuffix.subset hz (by simp))).1
  have hpre3 : ∀ z t, z <:+ pre → z ≠ [] → M3run (z ++ t) = none := by
    intro z t hz hzne
    obtain ⟨c, cs, rfl⟩ : ∃ c cs, z = c :: cs := by
      cases z with
      | nil => exact absurd rfl hzne
      | cons c cs => exact ⟨c, cs, rfl⟩
    exact M3run_none_of_head (hpre c (List.IsSuffix.subset hz (by simp))).2
  have hlineV2 : ∀ z t, z <:+ implChars ++ ws ++ [q] ++ coordChars ++ V ++ [q] →
      z ≠ [] → M2run (z ++ t) = none := by
    intro z t hz hzne
    by_cases hzf : z = implChars ++ ws ++ [q] ++ coordChars ++ V ++ [q]
    · subst hzf
      rw [show (implChars ++ ws ++ [q] ++ coordChars ++ V ++ [q]) ++ t
          = implChars ++ (ws ++ (q :: (coordChars ++ (V ++ ([q] ++ t))))) from by simp]
      exact M2run_impl_noparen hws hq
    · cases e : M2run (z ++ t) with
      | none => rfl
      | some parts =>
        obtain ⟨g1, v, g2, r⟩ := parts
        exact (oa1 hws hq hq hVc hz hzne hzf (run2_impl_pre e)).elim
  have hlineV3 : ∀ z t, z <:+ implChars ++ ws ++ [q] ++ coordChars ++ V ++ [q] →
      z ≠ [] → M3run (z ++ t) = none := by
    intro z t hz hzne
    by_cases hzf : z = implChars ++ ws ++ [q] ++ coordChars ++ V ++ [q]
    · subst hzf
      rw [show (implChars ++ ws ++ [q] ++ coordChars ++ V ++ [q]) ++ t
          = implChars ++ (ws ++ (q :: (coordChars ++ (V ++ ([q] ++ t))))) from by simp]
      exact M3run_impl_start
    · cases e : M3run (z ++ t) with
      | none => rfl
      | some parts =>
        obtain ⟨g1, v, g2, r⟩ := parts
        obtain ⟨ws1', hws1', hprev⟩ := run3_head_pre e
        exact (ob1 hws hq hq hVc hws1' hz hzne hprev).elim
  show reSub M3run V (reSub M2run V (reSub M1run V _)) = _
  have h1 : reSub M1run V
      (pre ++ (implChars ++ ws ++ [q] ++ coordChars ++ v0 ++ [q]) ++ post) =
      pre ++ ((implChars ++ ws ++ [q] ++ coordChars ++ V ++ [q]) ++
        reSub M1run V post) := by
    rw [show pre ++ (implChars ++ ws ++ [q] ++ coordChars ++ v0 ++ [q]) ++ post
        = pre ++ (implChars ++ ws ++ [q] ++ coordChars ++ v0 ++ [q] ++ post)
      from by simp]
    rw [reSub_skip hpre1]
    rw [reSub_eq_some s1 (M1run_complete hws hq hq hv0 hv0c)]
  rw [h1]
  have h2 : reSub M2run V
      (pre ++ ((implChars ++ ws ++ [q] ++ coordChars ++ V ++ [q]) ++
        reSub M1run V post)) =
      pre ++ ((implChars ++ ws ++ [q] ++ coordChars ++ V ++ [q]) ++
        reSub M2run V (reSub M1run V post)) := by
    rw [reSub_skip hpre2, reSub_skip hlineV2]
  rw [h2]
  rw [reSub_skip hpre3, reSub_skip hlineV3]
  simp [substituteContent, List.append_assoc]

theorem c7_quote_styles_witness :
    isQuoteChar '\'' = true ∧ isQuoteChar '"' = true ∧
    substituteContent ['2']
        ([] ++ (implChars ++ [' '] ++ ['\''] ++ coordChars ++ ['1'] ++ ['\'']) ++ []) =
      [] ++ (implChars ++ [' '] ++ ['\''] ++ coordChars ++ ['2'] ++ ['\'']) ++
        substituteContent ['2'] [] ∧
    substituteContent ['2']
        ([] ++ (implChars ++ [' '] ++ ['"'] ++ coordChars ++ ['1'] ++ ['"']) ++ []) =
      [] ++ (implChars ++ [' '] ++ ['"'] ++ coordChars ++ ['2'] ++ ['"']) ++
        substituteContent ['2'] [] := by
  refine ⟨by decide, by decide, ?_, ?_⟩
  · exact c7_quote_styles ['2'] [] [' '] ['1'] [] '\'' (by simp) (by decide) (by decide)
      (by decide) (by decide) (by decide) (by decide)
  · exact c7_quote_styles ['2'] [] [' '] ['1'] [] '"' (by simp) (by decide) (by decide)
      (by decide) (by decide) (by decide) (by decide)

/- ------------------------------------------------------------------ -/
/- Malformed prior version segments (pattern occurrences are only     -/
/- rewritten when the existing version is a digit-and-dot run).       -/
/- ------------------------------------------------------------------ -/

theorem countP_quote_nil {u : List Char} (hu : ∀ c ∈ u, isQuoteChar c = false) :
    u.countP isQuoteChar = 0 :=
  List.countP_eq_zero.mpr fun c hc => by simp [hu c hc]

theorem quotes_two_M1 {l g1 v g2 r : List Char} (e : M1run l = some (g1, v, g2, r)) :
    2 ≤ l.countP isQuoteChar := by
  obtain ⟨ws, q1, q2, _, hq1, hq2, _, _, _, _, hseq⟩ := M1run_eq_some e
  subst hseq
  have h1 : implChars.countP isQuoteChar = 0 := by decide
  have h2 : coordChars.countP isQuoteChar = 0 := by decide
  have h3 : List.countP isQuoteChar [q1] = 1 := by
    simp [List.countP_cons, List.countP_nil, hq1]
  have h4 : List.countP isQuoteChar [q2] = 1 := by
    simp [List.countP_cons, List.countP_nil, hq2]
  simp only [List.countP_append, h1, h2, h3, h4]
  omega

theorem quotes_two_M2 {l g1 v g2 r : List Char} (e : M2run l = some (g1, v, g2, r)) :
    2 ≤ l.countP isQuoteChar := by
  obtain ⟨ws, q1, q2, _, hq1, hq2, _, _, _, _, hseq⟩ := M2run_eq_some e
  subst hseq
  have h1 : implChars.countP isQuoteChar = 0 := by decide
  have h2 : coordChars.countP isQuoteChar = 0 := by decide
  have h0 : List.countP isQuoteChar ['('] = 0 := by decide
  have hpar : isQuoteChar ')' = false := by decide
  have h3 : List.countP isQuoteChar [q1] = 1 := by
    simp [List.countP_cons, List.countP_nil, hq1]
  have h4 : List.countP isQuoteChar [q2, ')'] = 1 := by
    simp [List.countP_cons, List.countP_nil, hq2, hpar]
  simp only [List.countP_append, h0, h1, h2, h3, h4]
  omega

theorem quotes_two_M3 {l g1 v g2 r : List Char} (e : M3run l = some (g1, v, g2, r)) :
    2 ≤ l.countP isQuoteChar := by
  obtain ⟨ws1, ws2, _, _, _, _, _, _, hseq⟩ := M3run_eq_some e
  subst hseq
  have h1 : shapeChars.countP isQuoteChar = 0 := by decide
  have h2 : List.countP isQuoteChar ['='] = 0 := by decide
  have h3 : List.countP isQuoteChar ['"'] = 1 := by decide
  simp only [List.countP_append, h1, h2, h3]
  omega

/-- A text containing at most one quote character matches none of the
three patterns (every pattern needs an opening and a closing quote). -/
theorem runs_none_low_quote {l : List Char} (h : l.countP isQuoteChar ≤ 1) :
    M1run l = none ∧ M2run l = none ∧ M3run l = none := by
  refine ⟨?_, ?_, ?_⟩
  · cases e : M1run l with
    | none => rfl
    | some parts =>
      obtain ⟨g1, v, g2, r⟩ := parts
      have := quotes_two_M1 e
      omega
  · cases e : M2run l with
    | none => rfl
    | some parts =>
      obtain ⟨g1, v, g2, r⟩ := parts
      have := quotes_two_M2 e
      omega
  · cases e : M3run l with
    | none => rfl
    | some parts =>
      obtain ⟨g1, v, g2, r⟩ := parts
      have := quotes_two_M3 e
      omega

theorem countP_low {u w : List Char} {q' : Char}
    (hu : ∀ c ∈ u, isQuoteChar c = false) (hw : ∀ c ∈ w, isQuoteChar c = false) :
    ((u ++ [q']) ++ w).countP isQuoteChar ≤ 1 := by
  have h1 := countP_quote_nil hu
  have h2 := countP_quote_nil hw
  have h3 : List.countP isQuoteChar [q'] ≤ 1 := by
    by_cases hq : isQuoteChar q' = true
    · simp [List.countP_cons, List.countP_nil, hq]
    · simp only [Bool.not_eq_true] at hq
      simp [List.countP_cons, List.countP_nil, hq]
  simp only [List.countP_append, h1, h2]
  omega

/-- Variant of `reSub_skip`: the scan passes over `A` unchanged when no
nonempty suffix of `A` begins a match of the document continued by the
fixed remainder `X`. -/
theorem reSub_skip_fixed {m : Matcher} {V A X : List Char}
    (h : ∀ z, z <:+ A → z ≠ [] → m (z ++ X) = none) :
    reSub m V (A ++ X) = A ++ reSub m V X := by
  induction A with
  | nil => rfl
  | cons c cs ih =>
    rw [show (c :: cs) ++ X = c :: (cs ++ X) from rfl]
    have e : m (c :: (cs ++ X)) = none := h (c :: cs) List.suffix_rfl (by simp)
    rw [reSub_cons_none e]
    rw [ih fun z hz hzne => h z (hz.trans ⟨[c], rfl⟩) hzne]
    rfl

theorem runs_none_of_no_head {pre : List Char}
    (hpre : ∀ c ∈ pre, c ≠ 'i' ∧ c ≠ 's') :
    ∀ z t, z <:+ pre → z ≠ [] →
      M1run (z ++ t) = none ∧ M2run (z ++ t) = none ∧ M3run (z ++ t) = none := by
  intro z t hz hzne
  obtain ⟨c, cs, rfl⟩ : ∃ c cs, z = c :: cs := by
    cases z with
    | nil => exact absurd rfl hzne
    | cons c cs => exact ⟨c, cs, rfl⟩
  have hc := hpre c (List.IsSuffix.subset hz (by simp))
  exact ⟨M1run_none_of_head hc.1, M2run_none_of_head hc.1, M3run_none_of_head hc.2⟩

theorem verStage2_bad {g1 v : List Char} {b : Char} {L : List Char}
    (hb : isQuoteChar b = false) : verStage2 g1 v (b :: L) = none := by
  cases L with
  | nil => rfl
  | cons rp rr => simp [verStage2, hb]

theorem verStage3_bad {g1 v : List Char} {b : Char} {L : List Char}
    (hb : b ≠ '"') : verStage3 g1 v (b :: L) = none := by
  unfold verStage3
  split
  · rename_i r heq
    injection heq with h1 h2
    exact absurd h1 hb
  · rfl

theorem M2run_doc_none {ws v0 Y : List Char} {q : Char}
    (hws : ∀ c ∈ ws, isPySpace c = true) (hq : isQuoteChar q = true)
    (hbad : ∃ b ∈ v0, isVerChar b = false)
    (hnq : ∀ ch ∈ v0, isQuoteChar ch = false) :
    M2run (implChars ++ ('(' :: (ws ++ (q :: (coordChars ++ (v0 ++ Y)))))) = none := by
  unfold M2run
  have hstrip : stripLit (implChars ++ ['('])
      (implChars ++ ('(' :: (ws ++ (q :: (coordChars ++ (v0 ++ Y)))))) =
      some (ws ++ (q :: (coordChars ++ (v0 ++ Y)))) :=
    stripLit_eq_some.mpr (by simp)
  rw [hstrip]
  simp only [spaceStage2]
  have hqs : isPySpace q = false := (quoteChar_facts hq).2.2.2.2.2.2.1
  obtain ⟨ht1, hd1⟩ := takeWhile_all_cons hws hqs (t := coordChars ++ (v0 ++ Y))
  rw [ht1, hd1]
  simp only [quoteStage2, hq, if_true]
  rw [stripLit_eq_some.mpr rfl]
  simp only [coordStage2]
  obtain ⟨ht2, hd2⟩ := takeWhile_append_of_bad Y hbad
  rw [ht2, hd2]
  cases e : v0.dropWhile isVerChar with
  | nil => exact absurd e (dropWhile_ne_nil_of_bad hbad)
  | cons b rest =>
    have hbq : isQuoteChar b = false := hnq b
      (List.IsSuffix.subset (List.dropWhile_suffix isVerChar) (by rw [e]; simp))
    exact verStage2_bad hbq

theorem M3run_doc_none {ws1 ws2 v0 Y : List Char}
    (hws1 : ∀ c ∈ ws1, isPySpace c = true) (hws2 : ∀ c ∈ ws2, isPySpace c = true)
    (hbad : ∃ b ∈ v0, isVerChar b = false)
    (hnq : ∀ ch ∈ v0, isQuoteChar ch = false) :
    M3run (shapeChars ++ (ws1 ++ ('=' :: (ws2 ++ ('"' :: (v0 ++ Y)))))) = none := by
  unfold M3run
  rw [stripLit_eq_some.mpr rfl]
  simp only [spaceStage3]
  obtain ⟨ht1, hd1⟩ := takeWhile_all_cons hws1
    (show isPySpace '=' = false by decide) (t := ws2 ++ ('"' :: (v0 ++ Y)))
  rw [ht1, hd1]
  simp only [eqStage3]
  obtain ⟨ht2, hd2⟩ := takeWhile_all_cons hws2
    (show isPySpace '"' = false by decide) (t := v0 ++ Y)
  rw [ht2, hd2]
  simp only [quote3Stage]
  obtain ⟨ht3, hd3⟩ := takeWhile_append_of_bad Y hbad
  rw [ht3, hd3]
  cases e : v0.dropWhile isVerChar with
  | nil => exact absurd e (dropWhile_ne_nil_of_bad hbad)
  | cons b rest =>
    have hbq : isQuoteChar b = false := hnq b
      (List.IsSuffix.subset (List.dropWhile_suffix isVerChar) (by rw [e]; simp))
    have hbne : b ≠ '"' := fun hbe => by
      rw [hbe] at hbq
      exact absurd hbq (by decide)
    exact verStage3_bad hbne

theorem M3run_s_tail {ws1 Y : List Char} (hws1 : ∀ c ∈ ws1, isPySpace c = true) :
    M3run ('s' :: (ws1 ++ ('=' :: Y))) = none := by
  cases ws1 with
  | nil => rfl
  | cons c cs =>
    have hc : c ≠ 'h' := (pySpace_facts (hws1 c (by simp))).2.2.1
    unfold M3run
    have hstrip : stripLit shapeChars ('s' :: ((c :: cs) ++ ('=' :: Y))) = none := by
      simp only [List.cons_append]
      simp [shapeChars, stripLit, hc]
    rw [hstrip]
    rfl

/-- No nonempty suffix of a pattern-1-shaped line with a malformed,
quote-free version segment begins a match, whatever quote-free text
follows the line. -/
theorem c8_nomatch1 {ws v0 post : List Char} {q q' : Char}
    (hws : ∀ c ∈ ws, isPySpace c = true) (hq : isQuoteChar q = true)
    (hq' : isQuoteChar q' = true)
    (hbad : ∃ b ∈ v0, isVerChar b = false)
    (hnq : ∀ ch ∈ v0, isQuoteChar ch = false)
    (hpost : ∀ c ∈ post, isQuoteChar c = false) :
    ∀ z, z <:+ inst1 ws q v0 q' → z ≠ [] →
      M1run (z ++ post) = none ∧ M2run (z ++ post) = none ∧
        M3run (z ++ post) = none := by
  intro z hz hzne
  rw [show inst1 ws q v0 q'
      = implChars ++ (ws ++ (q :: (coordChars ++ (v0 ++ [q'])))) from by
    simp [inst1, List.append_assoc]] at hz
  rcases suffix_append_cases' hz with hz | ⟨u, hu, hune, rfl⟩
  · rcases suffix_append_cases' hz with hz | ⟨u, hu, hune, rfl⟩
    · rcases suffix_cons_cases hz with hz | rfl
      · rcases suffix_append_cases' hz with hz | ⟨u, hu, hune, rfl⟩
        · rcases suffix_append_cases' hz with hz | ⟨u, hu, hune, rfl⟩
          · rcases suffix_cons_cases hz with hz | rfl
            · exact absurd (List.suffix_nil.mp hz) hzne
            · exact ⟨M1run_none_of_head (quoteChar_facts hq').1,
                M2run_none_of_head (quoteChar_facts hq').1,
                M3run_none_of_head (quoteChar_facts hq').2.1⟩
          · exact runs_none_low_quote (countP_low
              (fun c hc => hnq c (List.IsSuffix.subset hu hc)) hpost)
        · have hum := (List.mem_tails u coordChars).mpr hu
          fin_cases hum <;> first
            | exact absurd rfl hune
            | exact ⟨M1run_none_of_two (by decide), M2run_none_of_two (by decide),
                M3run_none_of_head (by decide)⟩
            | exact ⟨M1run_none_of_head (by decide), M2run_none_of_head (by decide),
                M3run_none_of_head (by decide)⟩
            | exact ⟨M1run_none_of_head (by decide), M2run_none_of_head (by decide),
                M3run_none_of_two (by decide)⟩
            | exact ⟨M1run_none_of_head (by decide), M2run_none_of_head (by decide),
                M3run_colon⟩
      · exact ⟨M1run_none_of_head (quoteChar_facts hq).1,
          M2run_none_of_head (quoteChar_facts hq).1,
          M3run_none_of_head (quoteChar_facts hq).2.1⟩
    · obtain ⟨c, cs, rfl⟩ : ∃ c cs, u = c :: cs := by
        cases u with
        | nil => exact absurd rfl hune
        | cons c cs => exact ⟨c, cs, rfl⟩
      have hc := head_space_of_suffix hu rfl hws
      exact ⟨M1run_none_of_head (pySpace_facts hc).1,
        M2run_none_of_head (pySpace_facts hc).1,
        M3run_none_of_head (pySpace_facts hc).2.1⟩
  · by_cases hufull : u = implChars
    · subst hufull
      rw [show (implChars ++ (ws ++ (q :: (coordChars ++ (v0 ++ [q']))))) ++ post
          = implChars ++ (ws ++ (q :: (coordChars ++ (v0 ++ ([q'] ++ post)))))
        from by simp]
      exact ⟨M1run_doc_none hws hq hbad hnq, M2run_impl_noparen hws hq,
        M3run_impl_start⟩
    · have hum := (List.mem_tails u implChars).mpr hu
      fin_cases hum <;> first
        | exact absurd rfl hune
        | exact absurd rfl hufull
        | exact ⟨M1run_none_of_two (by decide), M2run_none_of_two (by decide),
            M3run_none_of_head (by decide)⟩
        | exact ⟨M1run_none_of_head (by decide), M2run_none_of_head (by decide),
            M3run_none_of_head (by decide)⟩

/-- No nonempty suffix of a pattern-2-shaped (parenthesized) line with a
malformed, quote-free version segment begins a match, whatever
quote-free text follows the line. -/
theorem c8_nomatch2 {ws v0 post : List Char} {q q' : Char}
    (hws : ∀ c ∈ ws, isPySpace c = true) (hq : isQuoteChar q = true)
    (hq' : isQuoteChar q' = true)
    (hbad : ∃ b ∈ v0, isVerChar b = false)
    (hnq : ∀ ch ∈ v0, isQuoteChar ch = false)
    (hpost : ∀ c ∈ post, isQuoteChar c = false) :
    ∀ z, z <:+ inst2 ws q v0 q' → z ≠ [] →
      M1run (z ++ post) = none ∧ M2run (z ++ post) = none ∧
        M3run (z ++ post) = none := by
  intro z hz hzne
  rw [show inst2 ws q v0 q'
      = implChars ++ ('(' :: (ws ++ (q :: (coordChars ++ (v0 ++ [q', ')'])))))
    from by simp [inst2, List.append_assoc]] at hz
  rcases suffix_append_cases' hz with hz | ⟨u, hu, hune, rfl⟩
  · rcases suffix_cons_cases hz with hz | rfl
    · rcases suffix_append_cases' hz with hz | ⟨u, hu, hune, rfl⟩
      · rcases suffix_cons_cases hz with hz | rfl
        · rcases suffix_append_cases' hz with hz | ⟨u, hu, hune, rfl⟩
          · rcases suffix_append_cases' hz with hz | ⟨u, hu, hune, rfl⟩
            · rcases suffix_cons_cases hz with hz | rfl
              · rcases suffix_cons_cases hz with hz | rfl
                · exact absurd (List.suffix_nil.mp hz) hzne
                · exact ⟨M1run_none_of_head (by decide),
                    M2run_none_of_head (by decide),
                    M3run_none_of_head (by decide)⟩
              · exact ⟨M1run_none_of_head (quoteChar_facts hq').1,
                  M2run_none_of_head (quoteChar_facts hq').1,
                  M3run_none_of_head (quoteChar_facts hq').2.1⟩
            · rw [show (u ++ [q', ')']) ++ post = (u ++ [q']) ++ (')' :: post)
                from by simp]
              refine runs_none_low_quote (countP_low
                (fun c hc => hnq c (List.IsSuffix.subset hu hc)) ?_)
              intro c hc
              rcases List.mem_cons.mp hc with rfl | hc2
              · decide
              · exact hpost c hc2
          · have hum := (List.mem_tails u coordChars).mpr hu
            fin_cases hum <;> first
              | exact absurd rfl hune
              | exact ⟨M1run_none_of_two (by decide), M2run_none_of_two (by decide),
                  M3run_none_of_head (by decide)⟩
              | exact ⟨M1run_none_of_head (by decide), M2run_none_of_head (by decide),
                  M3run_none_of_head (by decide)⟩
              | exact ⟨M1run_none_of_head (by decide), M2run_none_of_head (by decide),
                  M3run_none_of_two (by decide)⟩
              | exact ⟨M1run_none_of_head (by decide), M2run_none_of_head (by decide),
                  M3run_colon⟩
        · exact ⟨M1run_none_of_head (quoteChar_facts hq).1,
            M2run_none_of_head (quoteChar_facts hq).1,
            M3run_none_of_head (quoteChar_facts hq).2.1⟩
      · obtain ⟨c, cs, rfl⟩ : ∃ c cs, u = c :: cs := by
          cases u with
          | nil => exact absurd rfl hune
          | cons c cs => exact ⟨c, cs, rfl⟩
        have hc := head_space_of_suffix hu rfl hws
        exact ⟨M1run_none_of_head (pySpace_facts hc).1,
          M2run_none_of_head (pySpace_facts hc).1,
          M3run_none_of_head (pySpace_facts hc).2.1⟩
    · exact ⟨M1run_none_of_head (by decide), M2run_none_of_head (by decide),
        M3run_none_of_head (by decide)⟩
  · by_cases hufull : u = implChars
    · subst hufull
      rw [show (implChars ++ ('(' :: (ws ++ (q :: (coordChars ++ (v0 ++ [q', ')'])))))) ++ post
          = implChars ++ ('(' :: (ws ++ (q :: (coordChars ++ (v0 ++ ([q', ')'] ++ post))))))
        from by simp]
      exact ⟨M1run_impl_paren, M2run_doc_none hws hq hbad hnq, M3run_impl_start⟩
    · have hum := (List.mem_tails u implChars).mpr hu
      fin_cases hum <;> first
        | exact absurd rfl hune
        | exact absurd rfl hufull
        | exact ⟨M1run_none_of_two (by decide), M2run_none_of_two (by decide),
            M3run_none_of_head (by decide)⟩
        | exact ⟨M1run_none_of_head (by decide), M2run_none_of_head (by decide),
            M3run_none_of_head (by decide)⟩

/-- No nonempty suffix of a pattern-3-shaped (assignment) line with a
malformed, quote-free version segment begins a match, whatever
quote-free text follows the line. -/
theorem c8_nomatch3 {ws1 ws2 v0 post : List Char}
    (hws1 : ∀ c ∈ ws1, isPySpace c = true) (hws2 : ∀ c ∈ ws2, isPySpace c = true)
    (hbad : ∃ b ∈ v0, isVerChar b = false)
    (hnq : ∀ ch ∈ v0, isQuoteChar ch = false)
    (hpost : ∀ c ∈ post, isQuoteChar c = false) :
    ∀ z, z <:+ inst3 ws1 ws2 v0 → z ≠ [] →
      M1run (z ++ post) = none ∧ M2run (z ++ post) = none ∧
        M3run (z ++ post) = none := by
  intro z hz hzne
  rw [show inst3 ws1 ws2 v0
      = shapeChars ++ (ws1 ++ ('=' :: (ws2 ++ ('"' :: (v0 ++ ['"'])))))
    from by simp [inst3, List.append_assoc]] at hz
  rcases suffix_append_cases' hz with hz | ⟨u, hu, hune, rfl⟩
  · rcases suffix_append_cases' hz with hz | ⟨u, hu, hune, rfl⟩
    · rcases suffix_cons_cases hz with hz | rfl
      · rcases suffix_append_cases' hz with hz | ⟨u, hu, hune, rfl⟩
        · rcases suffix_cons_cases hz with hz | rfl
          · rcases suffix_append_cases' hz with hz | ⟨u, hu, hune, rfl⟩
            · rcases suffix_cons_cases hz with hz | rfl
              · exact absurd (List.suffix_nil.mp hz) hzne
              · exact ⟨M1run_none_of_head (by decide),
                  M2run_none_of_head (by decide),
                  M3run_none_of_head (by decide)⟩
            · exact runs_none_low_quote (countP_low
                (fun c hc => hnq c (List.IsSuffix.subset hu hc)) hpost)
          · exact ⟨M1run_none_of_head (by decide), M2run_none_of_head (by decide),
              M3run_none_of_head (by decide)⟩
        · obtain ⟨c, cs, rfl⟩ : ∃ c cs, u = c :: cs := by
            cases u with
            | nil => exact absurd rfl hune
            | cons c cs => exact ⟨c, cs, rfl⟩
          have hc := head_space_of_suffix hu rfl hws2
          exact ⟨M1run_none_of_head (pySpace_facts hc).1,
            M2run_none_of_head (pySpace_facts hc).1,
            M3run_none_of_head (pySpace_facts hc).2.1⟩
      · exact ⟨M1run_none_of_head (by decide), M2run_none_of_head (by decide),
          M3run_none_of_head (by decide)⟩
    · obtain ⟨c, cs, rfl⟩ : ∃ c cs, u = c :: cs := by
        cases u with
        | nil => exact absurd rfl hune
        | cons c cs => exact ⟨c, cs, rfl⟩
      have hc := head_space_of_suffix hu rfl hws1
      exact ⟨M1run_none_of_head (pySpace_facts hc).1,
        M2run_none_of_head (pySpace_facts hc).1,
        M3run_none_of_head (pySpace_facts hc).2.1⟩
  · by_cases hufull : u = shapeChars
    · subst hufull
      rw [show (shapeChars ++ (ws1 ++ ('=' :: (ws2 ++ ('"' :: (v0 ++ ['"'])))))) ++ post
          = shapeChars ++ (ws1 ++ ('=' :: (ws2 ++ ('"' :: (v0 ++ (['"'] ++ post))))))
        from by simp]
      exact ⟨M1run_shape_start, M2run_shape_start, M3run_doc_none hws1 hws2 hbad hnq⟩
    · by_cases hu1 : u = ['s']
      · subst hu1
        refine ⟨M1run_none_of_head (by decide), M2run_none_of_head (by decide), ?_⟩
        rw [show (['s'] ++ (ws1 ++ ('=' :: (ws2 ++ ('"' :: (v0 ++ ['"'])))))) ++ post
            = 's' :: (ws1 ++ ('=' :: ((ws2 ++ ('"' :: (v0 ++ ['"']))) ++ post)))
          from by simp]
        exact M3run_s_tail hws1
      · have hum := (List.mem_tails u shapeChars).mpr hu
        fin_cases hum <;> first
          | exact absurd rfl hune
          | exact absurd rfl hufull
          | exact absurd rfl hu1
          | exact ⟨M1run_none_of_two (by decide), M2run_none_of_two (by decide),
              M3run_none_of_head (by decide)⟩
          | exact ⟨M1run_none_of_head (by decide), M2run_none_of_head (by decide),
              M3run_none_of_head (by decide)⟩

/-- A document made of a prefix in which no pattern can begin, a block
none of whose nonempty suffixes begins a match (even continued by the
quote-free remainder), and a quote-free remainder, passes through all
three scans unchanged. -/
theorem sub_skip_unchanged {V pre L post : List Char}
    (hpre : ∀ c ∈ pre, c ≠ 'i' ∧ c ≠ 's')
    (hL : ∀ z, z <:+ L → z ≠ [] →
      M1run (z ++ post) = none ∧ M2run (z ++ post) = none ∧
        M3run (z ++ post) = none)
    (hpost : ∀ c ∈ post, isQuoteChar c = false) :
    substituteContent V (pre ++ L ++ post) = pre ++ L ++ post := by
  have hpostrun : ∀ t, t <:+ post →
      M1run t = none ∧ M2run t = none ∧ M3run t = none := by
    intro t ht
    refine runs_none_low_quote ?_
    have h0 : t.countP isQuoteChar = 0 :=
      countP_quote_nil fun c hc => hpost c (List.IsSuffix.subset ht hc)
    omega
  have hplq : pre ++ L ++ post = pre ++ (L ++ post) := by simp
  unfold substituteContent
  rw [hplq]
  rw [reSub_skip fun z t hz hzne => (runs_none_of_no_head hpre z t hz hzne).1]
  rw [reSub_skip_fixed fun z hz hzne => (hL z hz hzne).1]
  rw [reSub_id_of_none fun t ht => (hpostrun t ht).1]
  rw [reSub_skip fun z t hz hzne => (runs_none_of_no_head hpre z t hz hzne).2.1]
  rw [reSub_skip_fixed fun z hz hzne => (hL z hz hzne).2.1]
  rw [reSub_id_of_none fun t ht => (hpostrun t ht).2.1]
  rw [reSub_skip fun z t hz hzne => (runs_none_of_no_head hpre z t hz hzne).2.2]
  rw [reSub_skip_fixed fun z hz hzne => (hL z hz hzne).2.2]
  rw [reSub_id_of_none fun t ht => (hpostrun t ht).2.2]

/-- C8 amended: a pattern occurrence is rewritten only when its prior
version segment is a nonempty run of decimal digits and dots.  An
otherwise well-shaped dependency line of each of the three recognized
forms — the plain quoted `implementation` line, the parenthesized
`implementation(...)` line, and the `shapeindicators = "..."`
assignment — whose prior version segment contains a character outside
`[0-9.]` is left entirely unchanged, provided no character of that
segment is a quote; this holds inside a surrounding document (preceding
text containing no `i` and no `s`, so no pattern can begin there, and
following text containing no quote character, so no match can extend
past the line).  The unrestricted claim is refuted by
`c8_counterexample`: an embedded quote in the segment closes the match
early and the digits before it are rewritten. -/
theorem c8_malformed_version_unchanged (V pre ws ws1 ws2 v0 post : List Char)
    (q q' : Char)
    (hpre : ∀ c ∈ pre, c ≠ 'i' ∧ c ≠ 's')
    (hws : ∀ c ∈ ws, isPySpace c = true)
    (hws1 : ∀ c ∈ ws1, isPySpace c = true)
    (hws2 : ∀ c ∈ ws2, isPySpace c = true)
    (hq : isQuoteChar q = true) (hq' : isQuoteChar q' = true)
    (hbad : ∃ b ∈ v0, isVerChar b = false)
    (hnq : ∀ ch ∈ v0, isQuoteChar ch = false)
    (hpost : ∀ c ∈ post, isQuoteChar c = false) :
    substituteContent V (pre ++ inst1 ws q v0 q' ++ post) =
      pre ++ inst1 ws q v0 q' ++ post ∧
    substituteContent V (pre ++ inst2 ws q v0 q' ++ post) =
      pre ++ inst2 ws q v0 q' ++ post ∧
    substituteContent V (pre ++ inst3 ws1 ws2 v0 ++ post) =
      pre ++ inst3 ws1 ws2 v0 ++ post :=
  ⟨sub_skip_unchanged hpre (c8_nomatch1 hws hq hq' hbad hnq hpost) hpost,
   sub_skip_unchanged hpre (c8_nomatch2 hws hq hq' hbad hnq hpost) hpost,
   sub_skip_unchanged hpre (c8_nomatch3 hws1 hws2 hbad hnq hpost) hpost⟩

theorem c8_malformed_version_unchanged_witness :
    (∀ c ∈ ("* dep: ".toList), c ≠ 'i' ∧ c ≠ 's') ∧
    (∃ b ∈ ("1.0.0-beta1".toList), isVerChar b = false) ∧
    (∀ ch ∈ ("1.0.0-beta1".toList), isQuoteChar ch = false) ∧
    (∀ c ∈ ("; see docs".toList), isQuoteChar c = false) ∧
    (substituteContent ['9'] ("* dep: ".toList ++
        inst1 [' '] '"' ("1.0.0-beta1".toList) '\'' ++ ("; see docs".toList)) =
      "* dep: ".toList ++ inst1 [' '] '"' ("1.0.0-beta1".toList) '\'' ++
        ("; see docs".toList) ∧
     substituteContent ['9'] ("* dep: ".toList ++
        inst2 [' '] '"' ("1.0.0-beta1".toList) '\'' ++ ("; see docs".toList)) =
      "* dep: ".toList ++ inst2 [' '] '"' ("1.0.0-beta1".toList) '\'' ++
        ("; see docs".toList) ∧
     substituteContent ['9'] ("* dep: ".toList ++
        inst3 [] [' '] ("1.0.0-beta1".toList) ++ ("; see docs".toList)) =
      "* dep: ".toList ++ inst3 [] [' '] ("1.0.0-beta1".toList) ++
        ("; see docs".toList)) :=
  ⟨by decide, by decide, by decide, by decide,
   c8_malformed_version_unchanged ['9'] ("* dep: ".toList) [' '] [] [' ']
     ("1.0.0-beta1".toList) ("; see docs".toList) '"' '\''
     (by decide) (by decide) (by decide) (by decide) (by decide) (by decide)
     (by decide) (by decide) (by decide)⟩
